import Mathlib

/-!
# Verification of the Fisual synthesizer DSP core

A shallow embedding of the repository's DSP core (`complex.rs`, `sample.rs`,
`adsr.rs`, `mixer.rs`, `fft.rs`) into Lean 4, with theorems settling the
spec's claims about it.  Rust `f32`/`f64` arithmetic is modelled by exact
real arithmetic (`ℝ`); Rust's truncating float remainder `%` is modelled by
`frem`; Rust `usize` by `ℕ`; in-place slice mutation by explicit state
passing over `List`.
-/

open scoped Real

namespace Fisual

/-! ## complex.rs : the `Complex<T>` value type (instantiated at `ℝ`) -/

/-- Model of `Complex<T>` from `complex.rs`: a (real, imaginary) pair. -/
structure Cplx where
  real : ℝ
  imaginary : ℝ

namespace Cplx

/-- Constructor `Complex::real(x)` — a complex number with zero imaginary part. -/
def mkReal (x : ℝ) : Cplx := ⟨x, 0⟩

/-- Constructor `Complex::complex(r, i)`. -/
def mk' (r i : ℝ) : Cplx := ⟨r, i⟩

/-- Source `impl Add for Complex`. -/
instance : Add Cplx := ⟨fun a b => ⟨a.real + b.real, a.imaginary + b.imaginary⟩⟩

/-- Source `impl Sub for Complex`. -/
instance : Sub Cplx := ⟨fun a b => ⟨a.real - b.real, a.imaginary - b.imaginary⟩⟩

/-- Source `impl Mul for Complex`: `(ac - bd, ad + bc)`. -/
instance : Mul Cplx :=
  ⟨fun a b => ⟨a.real * b.real - a.imaginary * b.imaginary,
               a.imaginary * b.real + a.real * b.imaginary⟩⟩

/-- Source `impl Div for Complex`: conjugate formula, dividing by `c² + d²`. -/
noncomputable instance : Div Cplx :=
  ⟨fun a b =>
    let divisor := b.real ^ 2 + b.imaginary ^ 2
    ⟨(a.real * b.real + a.imaginary * b.imaginary) / divisor,
     (a.imaginary * b.real - a.real * b.imaginary) / divisor⟩⟩

instance : Zero Cplx := ⟨⟨0, 0⟩⟩

instance : One Cplx := ⟨⟨1, 0⟩⟩

instance : Neg Cplx := ⟨fun a => ⟨-a.real, -a.imaginary⟩⟩

@[simp] theorem add_real (a b : Cplx) : (a + b).real = a.real + b.real := rfl

@[simp] theorem add_imaginary (a b : Cplx) : (a + b).imaginary = a.imaginary + b.imaginary := rfl

@[simp] theorem sub_real (a b : Cplx) : (a - b).real = a.real - b.real := rfl

@[simp] theorem sub_imaginary (a b : Cplx) : (a - b).imaginary = a.imaginary - b.imaginary := rfl

@[simp] theorem mul_real (a b : Cplx) :
    (a * b).real = a.real * b.real - a.imaginary * b.imaginary := rfl

@[simp] theorem mul_imaginary (a b : Cplx) :
    (a * b).imaginary = a.imaginary * b.real + a.real * b.imaginary := rfl

@[simp] theorem zero_real : (0 : Cplx).real = 0 := rfl

@[simp] theorem zero_imaginary : (0 : Cplx).imaginary = 0 := rfl

@[simp] theorem one_real : (1 : Cplx).real = 1 := rfl

@[simp] theorem one_imaginary : (1 : Cplx).imaginary = 0 := rfl

@[simp] theorem neg_real (a : Cplx) : (-a).real = -a.real := rfl

@[simp] theorem neg_imaginary (a : Cplx) : (-a).imaginary = -a.imaginary := rfl

@[ext] theorem ext {a b : Cplx} (hr : a.real = b.real)
    (hi : a.imaginary = b.imaginary) : a = b := by
  cases a; cases b; simp_all

/-- The pair operations form a commutative ring (the usual complex number
structure), which lets us use `ring` on `Cplx` expressions. -/
instance : CommRing Cplx where
  add_assoc a b c := by ext <;> (simp; try ring)
  zero_add a := by ext <;> simp
  add_zero a := by ext <;> simp
  add_comm a b := by ext <;> (simp; try ring)
  mul_assoc a b c := by ext <;> (simp; try ring)
  one_mul a := by ext <;> simp
  mul_one a := by ext <;> simp
  left_distrib a b c := by ext <;> (simp; try ring)
  right_distrib a b c := by ext <;> (simp; try ring)
  mul_comm a b := by ext <;> (simp; try ring)
  zero_mul a := by ext <;> simp
  mul_zero a := by ext <;> simp
  neg_add_cancel a := by ext <;> simp
  nsmul := nsmulRec
  zsmul := zsmulRec

/-- Interpretation of the source `Complex` pair as a Mathlib complex number. -/
def toC (a : Cplx) : ℂ := Complex.mk a.real a.imaginary

@[simp] theorem toC_re (a : Cplx) : (toC a).re = a.real := rfl

@[simp] theorem toC_im (a : Cplx) : (toC a).im = a.imaginary := rfl

theorem toC_injective : Function.Injective toC := by
  intro a b h
  have hr : a.real = b.real := congrArg Complex.re h
  have hi : a.imaginary = b.imaginary := congrArg Complex.im h
  ext
  · exact hr
  · exact hi

@[simp] theorem toC_add (a b : Cplx) : toC (a + b) = toC a + toC b := by
  apply Complex.ext <;> simp

@[simp] theorem toC_sub (a b : Cplx) : toC (a - b) = toC a - toC b := by
  apply Complex.ext <;> simp

@[simp] theorem toC_mul (a b : Cplx) : toC (a * b) = toC a * toC b := by
  apply Complex.ext <;> simp [Complex.mul_re, Complex.mul_im] <;> ring

@[simp] theorem toC_zero : toC 0 = 0 := by
  apply Complex.ext <;> simp

@[simp] theorem toC_one : toC 1 = 1 := by
  apply Complex.ext <;> simp

@[simp] theorem toC_pow (a : Cplx) (n : ℕ) : toC (a ^ n) = toC a ^ n := by
  induction n with
  | zero => simp
  | succ n ih => rw [pow_succ, pow_succ, toC_mul, ih]

/-- The source division formula agrees with Mathlib's complex division
(including the divisor-zero case, where both yield `0`). -/
theorem toC_div (a b : Cplx) : toC (a / b) = toC a / toC b := by
  apply Complex.ext
  · show (a.real * b.real + a.imaginary * b.imaginary) / (b.real ^ 2 + b.imaginary ^ 2) = _
    rw [Complex.div_re, Complex.normSq_apply]
    simp only [toC_re, toC_im]
    ring
  · show (a.imaginary * b.real - a.real * b.imaginary) / (b.real ^ 2 + b.imaginary ^ 2) = _
    rw [Complex.div_im, Complex.normSq_apply]
    simp only [toC_re, toC_im]
    ring

@[simp] theorem toC_mkReal (x : ℝ) : toC (mkReal x) = (x : ℝ) := by
  apply Complex.ext <;> simp [mkReal, toC]

end Cplx

/-! ## sample.rs : waveform generators -/

/-- Rust's `%` on floats: the remainder truncated toward zero,
`x % y = x - y * trunc (x / y)`. -/
noncomputable def frem (x y : ℝ) : ℝ :=
  x - y * (if 0 ≤ x / y then (⌊x / y⌋ : ℝ) else (⌈x / y⌉ : ℝ))

/-- For a non-negative dividend and positive divisor, the Rust float remainder
is `y * fract (x / y)`. -/
theorem frem_nonneg_eq (x y : ℝ) (hx : 0 ≤ x) (hy : 0 < y) :
    frem x y = y * Int.fract (x / y) := by
  have hxy : 0 ≤ x / y := div_nonneg hx hy.le
  have hy0 : y ≠ 0 := hy.ne'
  rw [frem, if_pos hxy, Int.fract, mul_sub, mul_div_cancel₀ x hy0]

theorem frem_nonneg (x y : ℝ) (hx : 0 ≤ x) (hy : 0 < y) : 0 ≤ frem x y := by
  rw [frem_nonneg_eq x y hx hy]
  exact mul_nonneg hy.le (Int.fract_nonneg _)

theorem frem_lt (x y : ℝ) (hx : 0 ≤ x) (hy : 0 < y) : frem x y < y := by
  rw [frem_nonneg_eq x y hx hy]
  calc y * Int.fract (x / y) < y * 1 := by
        exact mul_lt_mul_of_pos_left (Int.fract_lt_one _) hy
    _ = y := mul_one y

/-- Taking `frem _ 1` gives the fractional part, for non-negative input. -/
theorem frem_one_eq_fract (x : ℝ) (hx : 0 ≤ x) : frem x 1 = Int.fract x := by
  rw [frem_nonneg_eq x 1 hx one_pos, div_one, one_mul]

/-- The `Sample` enum from `sample.rs`. -/
inductive Sample where
  | Sin (rate frequency : ℝ)
  | Sawtooth (frequency rate : ℝ)
  | Square (duty rate frequency : ℝ)
  | Triangle (rate frequency : ℝ)

namespace Sample

/-- Model of `Sample::next` from `sample.rs`. -/
noncomputable def next (s : Sample) (clock : ℝ) : ℝ :=
  match s with
  | Sin rate frequency =>
      Real.sin (2 * Real.pi * frequency * (clock * (1 / rate)))
  | Sawtooth frequency rate =>
      -1 + (frem (clock * frequency / rate) 1) * 2
  | Square duty rate frequency =>
      if frem (clock * frequency / rate) 1 > duty then 1 else -1
  | Triangle rate frequency =>
      let stage := frem ((clock * frequency) / rate) 4
      if stage ≤ 2 then -1 + frem (stage * 4) 2 else 1 - frem (stage * 4) 2

end Sample

/-! ## adsr.rs : the ADSR envelope state machine -/

/-- The `AdsrState` enum. -/
inductive AdsrState where
  | Attack
  | Decay
  | Sustain
  | Release
  | Finished
  deriving DecidableEq

/-- The `Adsr` struct.  The mutable Rust struct is modelled as an immutable
record; the mutating methods return the updated record. -/
structure Adsr where
  current_state : AdsrState
  time_in_state : ℝ
  attack : ℝ
  peak_scalar : ℝ
  decay : ℝ
  sustain : ℝ
  sustain_scalar : ℝ
  release : ℝ
  sample : Sample
  sample_rate : ℝ

namespace Adsr

/-- Model of `Adsr::new`. -/
def new (sample : Sample) (sample_rate attack peak_scalar decay sustain sustain_scalar release : ℝ) : Adsr :=
  { current_state := AdsrState.Attack
    time_in_state := 0
    sample := sample
    sample_rate := sample_rate
    attack := attack
    peak_scalar := peak_scalar
    decay := decay
    sustain := sustain
    sustain_scalar := sustain_scalar
    release := release }

/-- Model of `Adsr::step_state`: advances `time_in_state`, possibly transitions, and
returns the amplitude together with the updated envelope. -/
noncomputable def step_state (a : Adsr) (clock start_scalar end_scalar max_time : ℝ)
    (next_state : AdsrState) : ℝ × Adsr :=
  let sampled := a.sample.next clock
  let a := { a with time_in_state := a.time_in_state + 1 / a.sample_rate }
  if a.time_in_state > max_time then
    (sampled * end_scalar, { a with current_state := next_state })
  else
    let low_sample := start_scalar * sampled
    let high_sample := end_scalar * sampled
    (low_sample + (high_sample - low_sample) * (a.time_in_state / max_time), a)

/-- Model of `Adsr::next`. -/
noncomputable def next (a : Adsr) (clock : ℝ) : ℝ × Adsr :=
  match a.current_state with
  | AdsrState.Attack =>
      a.step_state clock 0 a.peak_scalar a.attack AdsrState.Decay
  | AdsrState.Decay =>
      a.step_state clock a.peak_scalar a.sustain_scalar a.decay AdsrState.Sustain
  | AdsrState.Sustain =>
      a.step_state clock a.sustain_scalar a.sustain_scalar a.sustain AdsrState.Release
  | AdsrState.Release =>
      a.step_state clock a.sustain_scalar 0 a.release AdsrState.Finished
  | AdsrState.Finished => (0, a)

/-- Model of `Adsr::finished`. -/
def finished (a : Adsr) : Bool :=
  match a.current_state with
  | AdsrState.Attack | AdsrState.Decay | AdsrState.Sustain | AdsrState.Release => false
  | AdsrState.Finished => true

end Adsr

/-! ## mixer.rs : the voice mixer -/

/-- The `Chunk` struct: a playing envelope plus its per-voice sample count. -/
structure Chunk where
  sample : Adsr
  samples : ℝ

/-- The `Mixer` struct. -/
structure Mixer where
  chunks : List Chunk

namespace Mixer

/-- Model of `Mixer::new`. -/
def new : Mixer := ⟨[]⟩

/-- Model of `Mixer::add_sample`. -/
def add_sample (m : Mixer) (sample : Adsr) : Mixer :=
  ⟨m.chunks ++ [⟨sample, 0⟩]⟩

/-- One `drain_filter` visit: sample the voice, bump its counter, keep it
unless its envelope reports finished. -/
noncomputable def visit (acc : ℝ × List Chunk) (c : Chunk) : ℝ × List Chunk :=
  let r := c.sample.next c.samples
  let sampled := acc.1 + r.1
  let c' : Chunk := ⟨r.2, c.samples + 1⟩
  (sampled, if c'.sample.finished then acc.2 else acc.2 ++ [c'])

/-- Model of `Mixer::next`: `drain_filter` visits every chunk once (summing and
bumping counters, dropping finished voices), then the sum is clipped with
`f32::max(f32::min(sampled, 1.0), -1.)`. -/
noncomputable def next (m : Mixer) : ℝ × Mixer :=
  let st := m.chunks.foldl visit (0, [])
  (max (min st.1 1) (-1), ⟨st.2⟩)

/-- The value a chunk contributes to the current tick. -/
noncomputable def chunkValue (c : Chunk) : ℝ := (c.sample.next c.samples).1

/-- A chunk after one tick: envelope advanced, sample counter bumped. -/
noncomputable def chunkAdvance (c : Chunk) : Chunk :=
  ⟨(c.sample.next c.samples).2, c.samples + 1⟩

/-- The `drain_filter` fold, characterized: it adds up every chunk's sample
and keeps (in order) the advanced chunks whose envelopes are not finished. -/
theorem foldl_visit (l : List Chunk) (s : ℝ) (kept : List Chunk) :
    l.foldl visit (s, kept) =
      (s + (l.map chunkValue).sum,
       kept ++ (l.map chunkAdvance).filter (fun c => ! c.sample.finished)) := by
  induction l generalizing s kept with
  | nil => simp
  | cons c l ih =>
    rw [List.foldl_cons, List.map_cons, List.sum_cons, List.map_cons, List.filter_cons]
    by_cases hfin : ((c.sample.next c.samples).2).finished
    · have hv : visit (s, kept) c = (s + chunkValue c, kept) := by
        simp [visit, chunkValue, hfin]
      rw [hv, ih]
      have hpred : (! (chunkAdvance c).sample.finished) = false := by
        simp [chunkAdvance, hfin]
      rw [hpred]
      simp [add_assoc]
    · have hv : visit (s, kept) c = (s + chunkValue c, kept ++ [chunkAdvance c]) := by
        simp [visit, chunkValue, chunkAdvance, hfin]
      rw [hv, ih]
      have hpred : (! (chunkAdvance c).sample.finished) = true := by
        simp [chunkAdvance, hfin]
      rw [hpred]
      simp [add_assoc]

/-- Characterization of `Mixer::next`: the clipped sum of every voice's sample,
and the advanced, compacted voice list. -/
theorem next_spec (m : Mixer) :
    m.next =
      (max (min ((m.chunks.map chunkValue).sum) 1) (-1),
       ⟨(m.chunks.map chunkAdvance).filter (fun c => ! c.sample.finished)⟩) := by
  rw [Mixer.next, foldl_visit]
  simp

end Mixer

/-! ## Claims about the mixer -/

/-- C7: `Mixer::next()` returns exactly `clamp(s, -1, 1)` where `s` is the sum
of the current voices' envelope samples; in particular the result lies in
`[-1, 1]`. -/
theorem C7_mixer_clamps (m : Mixer) :
    (m.next).1 = max (min ((m.chunks.map Mixer.chunkValue).sum) 1) (-1) ∧
    -1 ≤ (m.next).1 ∧ (m.next).1 ≤ 1 := by
  rw [Mixer.next_spec]
  exact ⟨rfl, le_max_right _ _, max_le (min_le_right _ _) (by norm_num)⟩

/-- C8: on a `Mixer::next()` call each voice present at the start is sampled
exactly once with its counter bumped exactly once (the `map`), every voice
whose envelope is then finished is removed (the `filter`), and the returned
value is the clipped sum to which each starting voice contributed exactly
once. -/
theorem C8_mixer_sample_once_evict (m : Mixer) :
    (m.next).2.chunks =
      (m.chunks.map Mixer.chunkAdvance).filter (fun c => ! c.sample.finished) ∧
    (m.next).1 = max (min ((m.chunks.map Mixer.chunkValue).sum) 1) (-1) := by
  rw [Mixer.next_spec]
  exact ⟨rfl, rfl⟩

/-- C10: `Mixer::next()` on a voiceless mixer returns exactly 0 and leaves the
mixer unchanged (still no voices). -/
theorem C10_empty_mixer (m : Mixer) (h : m.chunks = []) : m.next = (0, m) := by
  obtain ⟨chunks⟩ := m
  simp only at h
  subst h
  rw [Mixer.next_spec]
  norm_num

/-- C10 witness: the freshly created mixer. -/
theorem C10_witness : Mixer.new.next = (0, Mixer.new) :=
  C10_empty_mixer Mixer.new rfl

/-! ## Claims about the waveform generators -/

/-- C9: every waveform variant, under positive rate and frequency, duty in
[0,1] and non-negative clock, produces an amplitude in [-1, 1]. -/
theorem C9_waveform_range (rate frequency duty clock : ℝ)
    (hrate : 0 < rate) (hfreq : 0 < frequency)
    (hduty0 : 0 ≤ duty) (hduty1 : duty ≤ 1) (hclock : 0 ≤ clock) :
    (-1 ≤ (Sample.Sin rate frequency).next clock ∧
      (Sample.Sin rate frequency).next clock ≤ 1) ∧
    (-1 ≤ (Sample.Sawtooth frequency rate).next clock ∧
      (Sample.Sawtooth frequency rate).next clock ≤ 1) ∧
    (-1 ≤ (Sample.Square duty rate frequency).next clock ∧
      (Sample.Square duty rate frequency).next clock ≤ 1) ∧
    (-1 ≤ (Sample.Triangle rate frequency).next clock ∧
      (Sample.Triangle rate frequency).next clock ≤ 1) := by
  have hq : 0 ≤ clock * frequency / rate := div_nonneg (mul_nonneg hclock hfreq.le) hrate.le
  refine ⟨⟨Real.neg_one_le_sin _, Real.sin_le_one _⟩, ⟨?_, ?_⟩, ?_, ?_⟩
  · have h0 := frem_nonneg (clock * frequency / rate) 1 hq one_pos
    simp only [Sample.next]
    nlinarith
  · have h1 := frem_lt (clock * frequency / rate) 1 hq one_pos
    simp only [Sample.next]
    nlinarith
  · simp only [Sample.next]
    split <;> constructor <;> norm_num
  · have hs0 := frem_nonneg (clock * frequency / rate) 4 hq (by norm_num)
    have hs4 := frem_lt (clock * frequency / rate) 4 hq (by norm_num)
    have ht0 := frem_nonneg (frem (clock * frequency / rate) 4 * 4) 2
      (by nlinarith) (by norm_num)
    have ht2 := frem_lt (frem (clock * frequency / rate) 4 * 4) 2
      (by nlinarith) (by norm_num)
    simp only [Sample.next]
    split <;> constructor <;> nlinarith

/-- C9 witness: the hypotheses at rate 1, frequency 1, duty 1/2, clock 0. -/
theorem C9_witness :
    (-1 ≤ (Sample.Sin 1 1).next 0 ∧ (Sample.Sin 1 1).next 0 ≤ 1) ∧
    (-1 ≤ (Sample.Sawtooth 1 1).next 0 ∧ (Sample.Sawtooth 1 1).next 0 ≤ 1) ∧
    (-1 ≤ (Sample.Square (1/2) 1 1).next 0 ∧ (Sample.Square (1/2) 1 1).next 0 ≤ 1) ∧
    (-1 ≤ (Sample.Triangle 1 1).next 0 ∧ (Sample.Triangle 1 1).next 0 ≤ 1) :=
  C9_waveform_range 1 1 (1/2) 0 (by norm_num) (by norm_num) (by norm_num)
    (by norm_num) (by norm_num)

/-- C2 counterexample: for the Square wave with duty 1/2, rate 4, frequency 1
at clock 1 the phase fraction is 1/4, strictly below the duty cycle, yet
`Sample::next` returns -1 — refuting "+1 when the phase fraction is less than
duty". -/
theorem C2_counterexample :
    frem ((1 : ℝ) * 1 / 4) 1 < (1 / 2 : ℝ) ∧
      (Sample.Square (1/2) 4 1).next 1 = -1 := by
  have h4 : ((1 : ℝ) * 1 / 4) = 1 / 4 := by norm_num
  have h : frem ((1 : ℝ) * 1 / 4) 1 = 1 / 4 := by
    rw [h4, frem_one_eq_fract _ (by norm_num),
      Int.fract_eq_self.mpr ⟨by norm_num, by norm_num⟩]
  have hlt : ¬ (frem ((1 : ℝ) * 1 / 4) 1 > (1 / 2 : ℝ)) := by rw [h]; norm_num
  refine ⟨by rw [h]; norm_num, ?_⟩
  simp only [Sample.next, if_neg hlt]

/-- C2 amended: the Square waveform returns +1 when the phase fraction
`fract(clock·frequency/rate)` strictly exceeds the duty cycle and -1
otherwise (in particular -1 when the fraction is below or equal to duty). -/
theorem C2_square_amended (duty rate frequency clock : ℝ)
    (hrate : 0 < rate) (hfreq : 0 ≤ frequency) (hclock : 0 ≤ clock) :
    (Sample.Square duty rate frequency).next clock =
      if duty < Int.fract (clock * frequency / rate) then 1 else -1 := by
  have hq : 0 ≤ clock * frequency / rate := div_nonneg (mul_nonneg hclock hfreq) hrate.le
  simp only [Sample.next]
  rw [frem_one_eq_fract _ hq]

/-- C2 amended witness: duty 1/2, rate 4, frequency 1, clock 1. -/
theorem C2_witness :
    (Sample.Square (1/2) 4 1).next 1 =
      if (1/2 : ℝ) < Int.fract ((1 : ℝ) * 1 / 4) then 1 else -1 :=
  C2_square_amended (1/2) 4 1 1 (by norm_num) (by norm_num) (by norm_num)

/-! ## fft.rs : the FFT engine -/

/-- Model of `is_power_of_two` from `fft.rs` (with its special case for zero). -/
def is_power_of_two (x : ℕ) : Bool :=
  match x with
  | 0 => false
  | x => decide (x > 0) && decide (x &&& (x - 1) = 0)

/-- Model `pow2_index` of `usize::trailing_zeros`: strip factors of two.
(Rust returns the bit width at 0; this model returns 0 there — the function
is only reached behind `do_fft`'s power-of-two guard, so 0 never occurs.) -/
def pow2_index (size : ℕ) : ℕ :=
  if size = 0 ∨ size % 2 = 1 then 0
  else pow2_index (size / 2) + 1
termination_by size
decreasing_by omega

/-- Model of `bitwise_reverse` from `fft.rs`: reverse the low `at` bits. -/
def bitwise_reverse (input atw : ℕ) : ℕ :=
  (List.range atw).foldl
    (fun result i =>
      if input &&& (1 <<< i) ≠ 0 then result ||| (1 <<< (atw - 1 - i)) else result)
    0

/-- Slice `input.swap(i, j)`, modelled on lists. -/
def listSwap (l : List Cplx) (i j : ℕ) : List Cplx :=
  (l.set i (l.getD j 0)).set j (l.getD i 0)

/-- Model of `bitwise_reverse_permute` from `fft.rs`. -/
def bitwise_reverse_permute (input : List Cplx) (size : ℕ) : List Cplx :=
  let size_bit := pow2_index size
  (List.range size).foldl
    (fun input i =>
      let ri := bitwise_reverse i size_bit
      if i < ri then listSwap input i ri else input)
    input

/-- The inner butterfly loop of `do_fft` for the block starting at `i`:
the fold state is the buffer together with the running twiddle `w`
(initially `Complex::real(1)`). -/
noncomputable def butterfly (wlen : Cplx) (i half_len : ℕ) (input : List Cplx) : List Cplx :=
  ((List.range half_len).foldl
    (fun (st : List Cplx × Cplx) j =>
      let buf := st.1
      let w := st.2
      let current := buf.getD (i + j) 0
      let scalar := buf.getD (i + j + half_len) 0 * w
      (((buf.set (i + j) (current + scalar)).set (i + j + half_len) (current - scalar)),
        w * wlen))
    (input, 1)).1

/-- One iteration of the `do_fft` while loop: the twiddle `wlen` for this
`len`, then butterflies on every block `i = 0, len, 2·len, …` of the buffer. -/
noncomputable def fft_pass (input : List Cplx) (max_len len : ℕ) (inverse : Bool) : List Cplx :=
  let angle : ℝ := 2 * (Real.pi / len) * (if inverse then -1 else 1)
  let wlen : Cplx := ⟨Real.cos angle, Real.sin angle⟩
  let half_len := len / 2
  (List.range (max_len / len)).foldl
    (fun input b => butterfly wlen (b * len) half_len input) input

/-- The `do_fft` while loop: passes with `len = 2, 4, 8, …` while
`len ≤ max_len`.  (With `len = 0` the Rust loop would never terminate; the
model returns the buffer unchanged there, and `do_fft` only starts it at
`len = 2`.) -/
noncomputable def fft_loop (input : List Cplx) (max_len len : ℕ) (inverse : Bool) : List Cplx :=
  if 0 < len ∧ len ≤ max_len then
    fft_loop (fft_pass input max_len len inverse) max_len (len <<< 1) inverse
  else input
termination_by max_len + 1 - len
decreasing_by simp only [Nat.shiftLeft_eq]; omega

/-- The inverse-normalization loop of `do_fft`: divide every element by the
buffer length. -/
noncomputable def inverse_scale (input : List Cplx) (max_len : ℕ) : List Cplx :=
  (List.range max_len).foldl
    (fun input i => input.set i (input.getD i 0 / Cplx.mkReal max_len)) input

/-- Model of `do_fft` from `fft.rs`.  The Rust function mutates the slice in place and
returns `Result<(), _>`; the model returns the result flag together with the
final state of the buffer, which on the size-guard failure is untouched. -/
noncomputable def do_fft (input : List Cplx) (inverse : Bool) : Except String Unit × List Cplx :=
  if ¬ is_power_of_two input.length then
    (Except.error "expected a power of two", input)
  else
    let max_len := input.length
    let input := bitwise_reverse_permute input input.length
    let input := fft_loop input max_len 2 inverse
    let input := if inverse then inverse_scale input max_len else input
    (Except.ok (), input)

/-- Model of `round_to` from `fft.rs`: pad a frame to `new_len` entries, filling the
added entries with `Complex::real(0.)`. -/
def round_to (frame : List Cplx) (new_len : ℕ) : Except String (List Cplx) :=
  if frame.length = new_len then Except.ok frame
  else if frame.length > new_len then
    Except.error "frame is already larger than desired size"
  else Except.ok (frame ++ List.replicate (new_len - frame.length) (Cplx.mkReal 0))

/-! ## Claim C3 : padding -/

/-- C3 counterexample: a frame whose length already equals the target is NOT
rejected — `round_to` returns it unchanged, contradicting "fails when the
frame's length is already >= newLen" (the repo's own test
`round_to(vec![...; 1024], 1024)` expects success). -/
theorem C3_counterexample :
    round_to [Cplx.mkReal 5] 1 = Except.ok [Cplx.mkReal 5] := rfl

/-- C3 (amended): `round_to` fails exactly when the frame is strictly longer
than the target; at equal length it returns the frame unchanged; when
shorter it returns the original entries followed by (0,0) padding up to the
target length. -/
theorem C3_round_to (frame : List Cplx) (new_len : ℕ) :
    (frame.length > new_len →
      round_to frame new_len = Except.error "frame is already larger than desired size") ∧
    (frame.length = new_len → round_to frame new_len = Except.ok frame) ∧
    (frame.length < new_len →
      ∃ out, round_to frame new_len = Except.ok out ∧
        out.length = new_len ∧
        out.take frame.length = frame ∧
        ∀ c ∈ out.drop frame.length, c = Cplx.mkReal 0) := by
  refine ⟨?_, ?_, ?_⟩
  · intro h
    rw [round_to, if_neg (by omega), if_pos h]
  · intro h
    rw [round_to, if_pos h]
  · intro h
    refine ⟨frame ++ List.replicate (new_len - frame.length) (Cplx.mkReal 0),
      ?_, ?_, ?_, ?_⟩
    · rw [round_to, if_neg (by omega), if_neg (by omega)]
    · simp
      omega
    · exact List.take_left _ _
    · rw [List.drop_left]
      intro c hc
      exact List.eq_of_mem_replicate hc

/-- C3 witness: frames of length 2, 1 and 1 against target lengths 1, 1, 2. -/
theorem C3_witness :
    round_to [Cplx.mkReal 5, Cplx.mkReal 5] 1 =
      Except.error "frame is already larger than desired size" ∧
    round_to [Cplx.mkReal 5] 1 = Except.ok [Cplx.mkReal 5] ∧
    ∃ out, round_to [Cplx.mkReal 5] 2 = Except.ok out ∧
      out.length = 2 ∧
      out.take 1 = [Cplx.mkReal 5] ∧
      ∀ c ∈ out.drop 1, c = Cplx.mkReal 0 :=
  ⟨(C3_round_to [Cplx.mkReal 5, Cplx.mkReal 5] 1).1 (by simp),
   (C3_round_to [Cplx.mkReal 5] 1).2.1 (by simp),
   (C3_round_to [Cplx.mkReal 5] 2).2.2 (by simp)⟩

/-! ## Claim C5 : the power-of-two size guard -/

/-- For positive `n`, `n &&& (n-1) = 0` holds exactly for the powers of two. -/
theorem and_pred_eq_zero_iff (n : ℕ) (hn : 0 < n) :
    n &&& (n - 1) = 0 ↔ ∃ k, n = 2 ^ k := by
  constructor
  · intro h
    refine ⟨n.log2, ?_⟩
    by_contra hne
    have hle : 2 ^ n.log2 ≤ n := Nat.log2_self_le hn.ne'
    have hlt : n < 2 ^ (n.log2 + 1) := Nat.lt_log2_self
    have hgt : 2 ^ n.log2 < n := lt_of_le_of_ne hle (Ne.symm hne)
    have hpow : 0 < 2 ^ n.log2 := Nat.pos_pow_of_pos _ (by norm_num)
    have hbn : n.testBit n.log2 = true := by
      rw [Nat.testBit_to_div_mod]
      have h1 : 1 ≤ n / 2 ^ n.log2 := (Nat.one_le_div_iff hpow).mpr hle
      have h2 : n / 2 ^ n.log2 < 2 := by
        rw [Nat.div_lt_iff_lt_mul hpow]
        calc n < 2 ^ (n.log2 + 1) := hlt
          _ = 2 * 2 ^ n.log2 := by ring
      have hdiv : n / 2 ^ n.log2 = 1 := by omega
      simp [hdiv]
    have hbn1 : (n - 1).testBit n.log2 = true := by
      rw [Nat.testBit_to_div_mod]
      have h1 : 1 ≤ (n - 1) / 2 ^ n.log2 := (Nat.one_le_div_iff hpow).mpr (by omega)
      have h2 : (n - 1) / 2 ^ n.log2 < 2 := by
        rw [Nat.div_lt_iff_lt_mul hpow]
        calc n - 1 < n := by omega
          _ < 2 ^ (n.log2 + 1) := hlt
          _ = 2 * 2 ^ n.log2 := by ring
      have hdiv : (n - 1) / 2 ^ n.log2 = 1 := by omega
      simp [hdiv]
    have hbit : (n &&& (n - 1)).testBit n.log2 = true := by
      rw [Nat.testBit_and, hbn, hbn1]
      rfl
    rw [h, Nat.zero_testBit] at hbit
    exact Bool.false_ne_true hbit
  · rintro ⟨k, rfl⟩
    apply Nat.eq_of_testBit_eq
    intro i
    rw [Nat.testBit_and, Nat.zero_testBit]
    rcases eq_or_ne k i with rfl | hik
    · have hlow : (2 ^ k - 1).testBit k = false := by
        simp [Nat.testBit_two_pow_sub_one]
      rw [hlow, Bool.and_false]
    · rw [Nat.testBit_two_pow_of_ne hik, Bool.false_and]

/-- Correctness of `is_power_of_two`: it decides "is a power of two". -/
theorem is_power_of_two_iff (n : ℕ) :
    is_power_of_two n = true ↔ ∃ k, n = 2 ^ k := by
  cases n with
  | zero =>
    simp only [is_power_of_two]
    constructor
    · intro h
      exact absurd h (by decide)
    · rintro ⟨k, hk⟩
      exact absurd hk.symm (Nat.pos_pow_of_pos k (by norm_num)).ne'
  | succ m =>
    have := and_pred_eq_zero_iff (m + 1) (Nat.succ_pos m)
    simp only [is_power_of_two, Nat.succ_sub_one, Bool.and_eq_true, decide_eq_true_eq]
    constructor
    · rintro ⟨-, h⟩
      exact this.mp h
    · intro h
      exact ⟨Nat.succ_pos m, this.mpr h⟩

/-- C5: `do_fft` fails with the size error and leaves every element of the
buffer unmodified exactly when the length is not a power of two; on
power-of-two lengths it does not return this error. -/
theorem C5_size_guard (input : List Cplx) (inverse : Bool) :
    ((¬ ∃ k, input.length = 2 ^ k) →
      do_fft input inverse = (Except.error "expected a power of two", input)) ∧
    ((∃ k, input.length = 2 ^ k) →
      ∃ out, do_fft input inverse = (Except.ok (), out)) := by
  constructor
  · intro h
    have hfalse : ¬ is_power_of_two input.length = true := fun hc =>
      h ((is_power_of_two_iff _).mp hc)
    rw [do_fft, if_pos hfalse]
  · intro h
    have htrue : is_power_of_two input.length = true := (is_power_of_two_iff _).mpr h
    rw [do_fft, if_neg (by simp [htrue])]
    exact ⟨_, rfl⟩

/-- C5 witness: a length-20 buffer is rejected untouched; a length-1 buffer
(2^0) is accepted. -/
theorem C5_witness :
    do_fft (List.replicate 20 (Cplx.mkReal 20)) false =
      (Except.error "expected a power of two", List.replicate 20 (Cplx.mkReal 20)) ∧
    ∃ out, do_fft [Cplx.mkReal 5] false = (Except.ok (), out) :=
  ⟨(C5_size_guard (List.replicate 20 (Cplx.mkReal 20)) false).1
    (by
      intro h
      have := (is_power_of_two_iff 20).mpr (by simpa using h)
      exact absurd this (by decide)),
   (C5_size_guard [Cplx.mkReal 5] false).2 ⟨0, by simp⟩⟩

/-! ## Claim C6 : the bit-reversal involution -/

/-- The loop guard of `bitwise_reverse` tests exactly bit `i`. -/
theorem and_shift_ne_zero_iff (x m : ℕ) :
    x &&& (1 <<< m) ≠ 0 ↔ x.testBit m = true := by
  rw [Nat.one_shiftLeft]
  constructor
  · intro h
    by_contra hb
    rw [Bool.not_eq_true] at hb
    apply h
    apply Nat.eq_of_testBit_eq
    intro i
    rw [Nat.testBit_and, Nat.zero_testBit]
    rcases eq_or_ne m i with rfl | hmi
    · rw [hb, Bool.false_and]
    · rw [Nat.testBit_two_pow_of_ne hmi, Bool.and_false]
  · intro h hzero
    have hcongr := congrArg (fun t => t.testBit m) hzero
    simp [Nat.testBit_and, h, Nat.testBit_two_pow_self, Nat.zero_testBit] at hcongr

/-- Bits of the partially accumulated `bitwise_reverse` fold: after the loop
has processed `i = 0, …, m-1`, bit `j` of the accumulator is bit
`atw - 1 - j` of the input, provided that source position has been visited. -/
theorem bitrev_partial_spec (input atw m : ℕ) (hm : m ≤ atw) (j : ℕ) :
    ((List.range m).foldl
        (fun result i =>
          if input &&& (1 <<< i) ≠ 0 then result ||| (1 <<< (atw - 1 - i)) else result)
        0).testBit j = true ↔
      (j < atw ∧ atw - 1 - j < m ∧ input.testBit (atw - 1 - j) = true) := by
  induction m with
  | zero => simp
  | succ m ih =>
    rw [List.range_succ, List.foldl_append, List.foldl_cons, List.foldl_nil]
    have hm' : m ≤ atw := by omega
    by_cases hbit : input &&& (1 <<< m) ≠ 0
    · have hbm : input.testBit m = true := (and_shift_ne_zero_iff input m).mp hbit
      rw [if_pos hbit, Nat.testBit_or, Nat.one_shiftLeft, Nat.testBit_two_pow,
        Bool.or_eq_true, decide_eq_true_eq, ih hm']
      constructor
      · rintro (⟨h1, h2, h3⟩ | hj)
        · exact ⟨h1, by omega, h3⟩
        · have hj' : atw - 1 - j = m := by omega
          refine ⟨by omega, by omega, ?_⟩
          rw [hj']
          exact hbm
      · rintro ⟨h1, h2, h3⟩
        rcases Nat.lt_succ_iff_lt_or_eq.mp h2 with h2' | h2'
        · exact Or.inl ⟨h1, h2', h3⟩
        · exact Or.inr (by omega)
    · have hbm : input.testBit m = false := by
        rcases Bool.eq_false_or_eq_true (input.testBit m) with h | h
        · exact absurd ((and_shift_ne_zero_iff input m).mpr h) hbit
        · exact h
      rw [if_neg hbit, ih hm']
      constructor
      · rintro ⟨h1, h2, h3⟩
        exact ⟨h1, by omega, h3⟩
      · rintro ⟨h1, h2, h3⟩
        rcases Nat.lt_succ_iff_lt_or_eq.mp h2 with h2' | h2'
        · exact ⟨h1, h2', h3⟩
        · rw [h2'] at h3
          rw [hbm] at h3
          exact absurd h3 (by simp)

/-- Bit `j` of `bitwise_reverse input atw` is bit `atw - 1 - j` of `input`
(and bits at `j ≥ atw` are clear). -/
theorem bitwise_reverse_testBit (input atw j : ℕ) :
    (bitwise_reverse input atw).testBit j = true ↔
      (j < atw ∧ input.testBit (atw - 1 - j) = true) := by
  rw [bitwise_reverse, bitrev_partial_spec input atw atw le_rfl j]
  constructor
  · rintro ⟨h1, _, h3⟩
    exact ⟨h1, h3⟩
  · rintro ⟨h1, h3⟩
    exact ⟨h1, by omega, h3⟩

/-- The reversed index fits in `atw` bits. -/
theorem bitwise_reverse_lt (input atw : ℕ) : bitwise_reverse input atw < 2 ^ atw := by
  apply Nat.lt_pow_two_of_testBit
  intro i hi
  rcases Bool.eq_false_or_eq_true ((bitwise_reverse input atw).testBit i) with h | h
  · have := (bitwise_reverse_testBit input atw i).mp h
    omega
  · exact h

/-- C6 (index half): reversing the low `k` bits twice is the identity on
`[0, 2^k)`. -/
theorem bitwise_reverse_involutive (k i : ℕ) (h : i < 2 ^ k) :
    bitwise_reverse (bitwise_reverse i k) k = i := by
  apply Nat.eq_of_testBit_eq
  intro j
  by_cases hj : j < k
  · have hiff : (bitwise_reverse (bitwise_reverse i k) k).testBit j = true ↔
        i.testBit j = true := by
      rw [bitwise_reverse_testBit, bitwise_reverse_testBit]
      have hk : k - 1 - (k - 1 - j) = j := by omega
      rw [hk]
      constructor
      · rintro ⟨-, -, h3⟩
        exact h3
      · intro h3
        exact ⟨hj, by omega, h3⟩
    rcases Bool.eq_false_or_eq_true (i.testBit j) with hb | hb
    · rw [hb, hiff.mpr hb]
    · rcases Bool.eq_false_or_eq_true
          ((bitwise_reverse (bitwise_reverse i k) k).testBit j) with hb' | hb'
      · rw [hb] at hiff
        exact absurd (hiff.mp hb') (by simp)
      · rw [hb, hb']
  · have h1 : (bitwise_reverse (bitwise_reverse i k) k).testBit j = false :=
      Nat.testBit_eq_false_of_lt
        (lt_of_lt_of_le (bitwise_reverse_lt _ k) (Nat.pow_le_pow_right (by norm_num) (by omega)))
    have h2 : i.testBit j = false :=
      Nat.testBit_eq_false_of_lt
        (lt_of_lt_of_le h (Nat.pow_le_pow_right (by norm_num) (by omega)))
    rw [h1, h2]

/-- The trailing-zero count of a power of two is its exponent. -/
theorem pow2_index_two_pow (k : ℕ) : pow2_index (2 ^ k) = k := by
  induction k with
  | zero => rw [pow2_index]; norm_num
  | succ k ih =>
    rw [pow2_index, if_neg]
    · have hdiv : 2 ^ (k + 1) / 2 = 2 ^ k := by
        rw [pow_succ]
        omega
      rw [hdiv, ih]
    · have hpos : 0 < 2 ^ (k + 1) := Nat.pos_pow_of_pos _ (by norm_num)
      have heven : 2 ^ (k + 1) % 2 = 0 := by
        rw [pow_succ]
        omega
      omega

/-! List `getD`/`set` helpers used to reason about the in-place loops. -/

theorem getD_set_self (l : List Cplx) (i : ℕ) (h : i < l.length) (a : Cplx) :
    (l.set i a).getD i 0 = a := by
  simp [List.getD_eq_getElem?_getD, List.getElem?_set_self h]

theorem getD_set_ne (l : List Cplx) {i j : ℕ} (h : i ≠ j) (a : Cplx) :
    (l.set i a).getD j 0 = l.getD j 0 := by
  simp [List.getD_eq_getElem?_getD, List.getElem?_set_ne h]

theorem length_listSwap (l : List Cplx) (i j : ℕ) :
    (listSwap l i j).length = l.length := by
  simp [listSwap]

theorem getD_listSwap_fst (l : List Cplx) {i j : ℕ} (hij : i ≠ j)
    (hi : i < l.length) : (listSwap l i j).getD i 0 = l.getD j 0 := by
  rw [listSwap, getD_set_ne _ (Ne.symm hij), getD_set_self _ _ hi]

theorem getD_listSwap_snd (l : List Cplx) {i j : ℕ} (hj : j < l.length) :
    (listSwap l i j).getD j 0 = l.getD i 0 := by
  rw [listSwap, getD_set_self]
  simpa using hj

theorem getD_listSwap_other (l : List Cplx) {i j p : ℕ} (hpi : p ≠ i)
    (hpj : p ≠ j) : (listSwap l i j).getD p 0 = l.getD p 0 := by
  rw [listSwap, getD_set_ne _ (Ne.symm hpj), getD_set_ne _ (Ne.symm hpi)]

theorem getD_eq_getElem (l : List Cplx) (n : ℕ) (h : n < l.length) :
    l.getD n 0 = l[n] := by
  rw [List.getD_eq_getElem?_getD, List.getElem?_eq_getElem h]
  rfl

/-- Invariant of the `bitwise_reverse_permute` swap loop: after the indices
`0, …, m-1` have been visited, position `j` holds the entry from the
reversed position as soon as the smaller end of its swap pair has been
visited, and is untouched otherwise. -/
theorem permute_partial (k : ℕ) (l : List Cplx) (hl : l.length = 2 ^ k) (m : ℕ)
    (hm : m ≤ 2 ^ k) :
    (((List.range m).foldl
        (fun input i =>
          let ri := bitwise_reverse i k
          if i < ri then listSwap input i ri else input) l).length = 2 ^ k) ∧
    (∀ j, j < 2 ^ k →
      ((List.range m).foldl
          (fun input i =>
            let ri := bitwise_reverse i k
            if i < ri then listSwap input i ri else input) l).getD j 0 =
        if min j (bitwise_reverse j k) < m then l.getD (bitwise_reverse j k) 0
        else l.getD j 0) := by
  induction m with
  | zero =>
    refine ⟨hl, fun j hj => ?_⟩
    rw [if_neg (by omega)]
    simp
  | succ m ih =>
    obtain ⟨ihlen, ihget⟩ := ih (by omega)
    rw [List.range_succ, List.foldl_append, List.foldl_cons, List.foldl_nil]
    have hmk : m < 2 ^ k := by omega
    have hriv : bitwise_reverse (bitwise_reverse m k) k = m :=
      bitwise_reverse_involutive k m hmk
    have hrilt : bitwise_reverse m k < 2 ^ k := bitwise_reverse_lt m k
    dsimp only
    by_cases hlt : m < bitwise_reverse m k
    · rw [if_pos hlt]
      refine ⟨by rw [length_listSwap, ihlen], fun j hj => ?_⟩
      have hjri : bitwise_reverse (bitwise_reverse j k) k = j :=
        bitwise_reverse_involutive k j hj
      rcases eq_or_ne j m with rfl | hjm
      · rw [getD_listSwap_fst _ (show j ≠ bitwise_reverse j k by omega)
          (show j < _ by rw [ihlen]; exact hmk)]
        have hR := ihget (bitwise_reverse j k) hrilt
        rw [hriv, min_eq_right hlt.le, if_neg (by omega)] at hR
        rw [hR, min_eq_left hlt.le, if_pos (by omega)]
      · rcases eq_or_ne j (bitwise_reverse m k) with rfl | hjR
        · rw [getD_listSwap_snd _
            (show bitwise_reverse m k < _ by rw [ihlen]; exact hrilt)]
          have hM := ihget m hmk
          rw [min_eq_left hlt.le, if_neg (by omega)] at hM
          rw [hM, hriv, min_eq_right hlt.le, if_pos (by omega)]
        · rw [getD_listSwap_other _ hjm hjR, ihget j hj]
          have hmin : min j (bitwise_reverse j k) ≠ m := by
            rcases le_total j (bitwise_reverse j k) with hle | hle
            · rw [min_eq_left hle]
              exact hjm
            · rw [min_eq_right hle]
              intro hEq
              apply hjR
              rw [← hEq, hjri]
          by_cases hc : min j (bitwise_reverse j k) < m
          · rw [if_pos hc, if_pos (by omega)]
          · rw [if_neg hc, if_neg (by omega)]
    · rw [if_neg hlt]
      refine ⟨ihlen, fun j hj => ?_⟩
      have hjri : bitwise_reverse (bitwise_reverse j k) k = j :=
        bitwise_reverse_involutive k j hj
      rw [ihget j hj]
      by_cases hc : min j (bitwise_reverse j k) < m
      · rw [if_pos hc, if_pos (by omega)]
      · by_cases hceq : min j (bitwise_reverse j k) = m
        · have hfix : bitwise_reverse j k = j := by
            rcases le_total j (bitwise_reverse j k) with hle | hle
            · have hjm : j = m := by rw [min_eq_left hle] at hceq; exact hceq
              have hrev : bitwise_reverse j k ≤ j := by rw [hjm] at hle ⊢; omega
              omega
            · have hrevm : bitwise_reverse j k = m := by
                rw [min_eq_right hle] at hceq; exact hceq
              have hjev : j = bitwise_reverse m k := by rw [← hrevm, hjri]
              omega
          rw [hfix]
          simp
        · rw [if_neg hc, if_neg (by omega)]

/-- Applying `bitwise_reverse_permute` to a `2^k`-length buffer keeps the length and
moves entry `bitwise_reverse j k` to position `j`. -/
theorem bitwise_reverse_permute_spec (k : ℕ) (l : List Cplx) (hl : l.length = 2 ^ k) :
    (bitwise_reverse_permute l (2 ^ k)).length = 2 ^ k ∧
    ∀ j, j < 2 ^ k →
      (bitwise_reverse_permute l (2 ^ k)).getD j 0 = l.getD (bitwise_reverse j k) 0 := by
  have h := permute_partial k l hl (2 ^ k) le_rfl
  simp only [bitwise_reverse_permute, pow2_index_two_pow]
  refine ⟨h.1, fun j hj => ?_⟩
  rw [h.2 j hj, if_pos (lt_of_le_of_lt (min_le_left _ _) hj)]

/-- The bit-reversal permutation of a `2^k`-length buffer is an involution. -/
theorem bitwise_reverse_permute_involutive (k : ℕ) (l : List Cplx)
    (hl : l.length = 2 ^ k) :
    bitwise_reverse_permute (bitwise_reverse_permute l (2 ^ k)) (2 ^ k) = l := by
  obtain ⟨hlen1, hget1⟩ := bitwise_reverse_permute_spec k l hl
  obtain ⟨hlen2, hget2⟩ := bitwise_reverse_permute_spec k _ hlen1
  apply List.ext_getElem (by rw [hlen2, hl])
  intro i h1 h2
  have hi : i < 2 ^ k := by rw [hlen2] at h1; exact h1
  rw [← getD_eq_getElem _ _ h1, ← getD_eq_getElem _ _ h2]
  rw [hget2 i hi, hget1 (bitwise_reverse i k) (bitwise_reverse_lt i k),
    bitwise_reverse_involutive k i hi]

/-- C6: for every bit-width `k`, reversing the low `k` bits twice returns the
original index for every `i < 2^k`; hence `bitwise_reverse_permute` on a
power-of-two-length buffer is an involution. -/
theorem C6_bit_reversal_involution (k : ℕ) :
    (∀ i, i < 2 ^ k → bitwise_reverse (bitwise_reverse i k) k = i) ∧
    (∀ l : List Cplx, l.length = 2 ^ k →
      bitwise_reverse_permute (bitwise_reverse_permute l l.length) l.length = l) := by
  refine ⟨fun i hi => bitwise_reverse_involutive k i hi, fun l hl => ?_⟩
  rw [hl]
  exact bitwise_reverse_permute_involutive k l hl

/-- C6 witness: bit-width 2, index 3, and a concrete length-4 buffer. -/
theorem C6_witness :
    bitwise_reverse (bitwise_reverse 3 2) 2 = 3 ∧
    bitwise_reverse_permute (bitwise_reverse_permute
        [Cplx.mkReal 1, Cplx.mkReal 2, Cplx.mkReal 3, Cplx.mkReal 4]
        [Cplx.mkReal 1, Cplx.mkReal 2, Cplx.mkReal 3, Cplx.mkReal 4].length)
      [Cplx.mkReal 1, Cplx.mkReal 2, Cplx.mkReal 3, Cplx.mkReal 4].length =
      [Cplx.mkReal 1, Cplx.mkReal 2, Cplx.mkReal 3, Cplx.mkReal 4] :=
  ⟨(C6_bit_reversal_involution 2).1 3 (by norm_num),
   (C6_bit_reversal_involution 2).2 _ rfl⟩

/-! ## Towards C4 : characterizing the butterfly passes -/

theorem getD_append_left (A B : List Cplx) {p : ℕ} (hp : p < A.length) :
    (A ++ B).getD p 0 = A.getD p 0 := by
  rw [List.getD_eq_getElem?_getD, List.getD_eq_getElem?_getD,
    List.getElem?_append_left hp]

theorem getD_append_right (A B : List Cplx) {p : ℕ} (hp : A.length ≤ p) :
    (A ++ B).getD p 0 = B.getD (p - A.length) 0 := by
  rw [List.getD_eq_getElem?_getD, List.getD_eq_getElem?_getD,
    List.getElem?_append_right hp]

theorem getD_of_length_le (l : List Cplx) {p : ℕ} (hp : l.length ≤ p) :
    l.getD p 0 = 0 := by
  rw [List.getD_eq_getElem?_getD, List.getElem?_eq_none hp]
  rfl

/-- The butterfly inner loop, partially executed: after the first `m` of the
`half_len` iterations, the two affected windows hold the combined values, the
running twiddle is `wlen ^ m`, and everything else is untouched. -/
theorem butterfly_partial (wlen : Cplx) (i h : ℕ) (input : List Cplx) (m : ℕ)
    (hm : m ≤ h) (hh : 0 < h) (hfit : i + h + h ≤ input.length) :
    (((List.range m).foldl
        (fun (st : List Cplx × Cplx) j =>
          let buf := st.1
          let w := st.2
          let current := buf.getD (i + j) 0
          let scalar := buf.getD (i + j + h) 0 * w
          (((buf.set (i + j) (current + scalar)).set (i + j + h) (current - scalar)),
            w * wlen))
        (input, 1)).2 = wlen ^ m) ∧
    (((List.range m).foldl
        (fun (st : List Cplx × Cplx) j =>
          let buf := st.1
          let w := st.2
          let current := buf.getD (i + j) 0
          let scalar := buf.getD (i + j + h) 0 * w
          (((buf.set (i + j) (current + scalar)).set (i + j + h) (current - scalar)),
            w * wlen))
        (input, 1)).1.length = input.length) ∧
    (∀ p, ((List.range m).foldl
        (fun (st : List Cplx × Cplx) j =>
          let buf := st.1
          let w := st.2
          let current := buf.getD (i + j) 0
          let scalar := buf.getD (i + j + h) 0 * w
          (((buf.set (i + j) (current + scalar)).set (i + j + h) (current - scalar)),
            w * wlen))
        (input, 1)).1.getD p 0 =
      if i ≤ p ∧ p < i + m then
        input.getD p 0 + input.getD (p + h) 0 * wlen ^ (p - i)
      else if i + h ≤ p ∧ p < i + h + m then
        input.getD (p - h) 0 - input.getD p 0 * wlen ^ (p - i - h)
      else input.getD p 0) := by
  induction m with
  | zero =>
    refine ⟨pow_zero wlen ▸ rfl, rfl, fun p => ?_⟩
    rw [if_neg (by omega), if_neg (by omega)]
    simp
  | succ m ih =>
    obtain ⟨ihw, ihlen, ihget⟩ := ih (by omega)
    rw [List.range_succ, List.foldl_append, List.foldl_cons, List.foldl_nil]
    dsimp only
    rw [ihw]
    have hcur := ihget (i + m)
    rw [if_neg (by omega), if_neg (by omega)] at hcur
    have hsc := ihget (i + m + h)
    rw [if_neg (by omega), if_neg (by omega)] at hsc
    rw [hcur, hsc]
    refine ⟨by rw [← pow_succ], by simp only [List.length_set]; exact ihlen, fun p => ?_⟩
    rcases eq_or_ne p (i + m) with rfl | hp1
    · rw [getD_set_ne _ (by omega), getD_set_self _ _ (by rw [ihlen]; omega)]
      rw [if_pos (by omega)]
      have hpi : i + m - i = m := by omega
      rw [hpi]
    · rcases eq_or_ne p (i + m + h) with rfl | hp2
      · rw [getD_set_self _ _ (by simp only [List.length_set]; rw [ihlen]; omega)]
        rw [if_neg (by omega), if_pos (by omega)]
        have h1 : i + m + h - h = i + m := by omega
        have h2 : i + m + h - i - h = m := by omega
        rw [h1, h2]
      · rw [getD_set_ne _ (by omega), getD_set_ne _ (by omega), ihget p]
        split_ifs <;> first | rfl | omega

/-- The butterfly for the block at `i` with half-width `h`, characterized. -/
theorem butterfly_spec (wlen : Cplx) (i h : ℕ) (input : List Cplx)
    (hh : 0 < h) (hfit : i + h + h ≤ input.length) :
    (butterfly wlen i h input).length = input.length ∧
    ∀ p, (butterfly wlen i h input).getD p 0 =
      if i ≤ p ∧ p < i + h then
        input.getD p 0 + input.getD (p + h) 0 * wlen ^ (p - i)
      else if i + h ≤ p ∧ p < i + h + h then
        input.getD (p - h) 0 - input.getD p 0 * wlen ^ (p - i - h)
      else input.getD p 0 := by
  obtain ⟨-, hlen, hget⟩ := butterfly_partial wlen i h input h le_rfl hh hfit
  exact ⟨hlen, hget⟩

/-- The per-level twiddle `wlen` of `do_fft`, as a value. -/
noncomputable def wlenOf (len : ℕ) (inverse : Bool) : Cplx :=
  ⟨Real.cos (2 * (Real.pi / len) * (if inverse then -1 else 1)),
   Real.sin (2 * (Real.pi / len) * (if inverse then -1 else 1))⟩

theorem fft_pass_eq (input : List Cplx) (n len : ℕ) (inverse : Bool) :
    fft_pass input n len inverse =
      (List.range (n / len)).foldl
        (fun input b => butterfly (wlenOf len inverse) (b * len) (len / 2) input) input := rfl

theorem butterfly_fold_length (wlen : Cplx) (i h : ℕ) (m : ℕ) (st : List Cplx × Cplx) :
    (((List.range m).foldl
        (fun (st : List Cplx × Cplx) j =>
          let buf := st.1
          let w := st.2
          let current := buf.getD (i + j) 0
          let scalar := buf.getD (i + j + h) 0 * w
          (((buf.set (i + j) (current + scalar)).set (i + j + h) (current - scalar)),
            w * wlen))
        st).1).length = st.1.length := by
  induction m generalizing st with
  | zero => rfl
  | succ m ih =>
    rw [List.range_succ, List.foldl_append, List.foldl_cons, List.foldl_nil]
    dsimp only
    simp only [List.length_set]
    exact ih st

theorem butterfly_length (wlen : Cplx) (i h : ℕ) (input : List Cplx) :
    (butterfly wlen i h input).length = input.length :=
  butterfly_fold_length wlen i h h (input, 1)

theorem foldl_butterfly_length (wlen : Cplx) (len h : ℕ) (blocks : List ℕ)
    (input : List Cplx) :
    ((blocks.foldl (fun buf b => butterfly wlen (b * len) h buf) input)).length =
      input.length := by
  induction blocks generalizing input with
  | nil => rfl
  | cons b bs ih => rw [List.foldl_cons, ih, butterfly_length]

theorem fft_pass_length (input : List Cplx) (n len : ℕ) (inverse : Bool) :
    (fft_pass input n len inverse).length = input.length := by
  rw [fft_pass_eq]
  exact foldl_butterfly_length _ _ _ _ _

theorem fft_loop_length (input : List Cplx) (max_len len : ℕ) (inverse : Bool) :
    (fft_loop input max_len len inverse).length = input.length := by
  rw [fft_loop]
  by_cases hc : 0 < len ∧ len ≤ max_len
  · rw [if_pos hc, fft_loop_length _ max_len (len <<< 1) inverse, fft_pass_length]
  · rw [if_neg hc]
termination_by max_len + 1 - len
decreasing_by simp only [Nat.shiftLeft_eq]; omega

theorem set_div_fold_length (c : Cplx) (input : List Cplx) (m : ℕ) :
    ((List.range m).foldl (fun input i => input.set i (input.getD i 0 / c)) input).length
      = input.length := by
  induction m with
  | zero => rfl
  | succ m ih =>
    rw [List.range_succ, List.foldl_append, List.foldl_cons, List.foldl_nil]
    rw [List.length_set, ih]

theorem inverse_scale_length (input : List Cplx) (n : ℕ) :
    (inverse_scale input n).length = input.length := by
  rw [inverse_scale]
  exact set_div_fold_length _ _ _

/-- An `fft_pass` block fold, partially executed: the first `B` blocks carry
the butterfly formula, the rest of the buffer is untouched. -/
theorem fft_pass_partial (input : List Cplx) (n len h : ℕ)
    (wlen : Cplx) (hn : input.length = n) (hdvd : len ∣ n) (hlen : len = h + h)
    (hh : 0 < h) (B : ℕ) (hB : B ≤ n / len) :
    ∀ b r, r < len → b * len + r < n →
      ((List.range B).foldl
          (fun buf b => butterfly wlen (b * len) h buf) input).getD (b * len + r) 0 =
        if b < B then
          (if r < h then
            input.getD (b * len + r) 0 + input.getD (b * len + r + h) 0 * wlen ^ r
          else
            input.getD (b * len + r - h) 0 - input.getD (b * len + r) 0 * wlen ^ (r - h))
        else input.getD (b * len + r) 0 := by
  induction B with
  | zero =>
    intro b r hr hp
    rw [if_neg (by omega)]
    rfl
  | succ B ih =>
    intro b r hr hp
    have hBlen : B * len + len ≤ n := by
      obtain ⟨q, hq⟩ := hdvd
      have hq' : n / len = q := by rw [hq]; exact Nat.mul_div_cancel_left q (by omega)
      calc B * len + len = (B + 1) * len := by ring
        _ ≤ q * len := Nat.mul_le_mul_right len (by omega)
        _ = n := by rw [hq]; ring
    have hfold_len : ((List.range B).foldl
        (fun buf b => butterfly wlen (b * len) h buf) input).length = n := by
      rw [foldl_butterfly_length, hn]
    rw [List.range_succ, List.foldl_append, List.foldl_cons, List.foldl_nil]
    obtain ⟨-, hbspec⟩ := butterfly_spec wlen (B * len) h
      ((List.range B).foldl (fun buf b => butterfly wlen (b * len) h buf) input)
      hh (by rw [hfold_len]; omega)
    rw [hbspec (b * len + r)]
    rcases Nat.lt_trichotomy b B with hbB | hbB | hbB
    · have hbl : b * len + len ≤ B * len := by
        calc b * len + len = (b + 1) * len := by ring
          _ ≤ B * len := Nat.mul_le_mul_right len (by omega)
      rw [if_neg (show ¬ (B * len ≤ b * len + r ∧ b * len + r < B * len + h) by omega),
        if_neg (show ¬ (B * len + h ≤ b * len + r ∧ b * len + r < B * len + h + h) by omega),
        ih (by omega) b r hr hp, if_pos hbB, if_pos (show b < B + 1 by omega)]
    · subst hbB
      by_cases hrh : r < h
      · rw [if_pos (show b * len ≤ b * len + r ∧ b * len + r < b * len + h by omega)]
        have e1 := ih (by omega) b r hr hp
        rw [if_neg (show ¬ b < b by omega)] at e1
        have e2 := ih (by omega) b (r + h) (by omega) (by omega)
        rw [if_neg (show ¬ b < b by omega)] at e2
        have harr : b * len + r + h = b * len + (r + h) := by omega
        rw [harr, e1, e2, if_pos (show b < b + 1 by omega), if_pos hrh]
        have hsub : b * len + r - b * len = r := by omega
        rw [hsub, ← harr]
      · rw [if_neg (show ¬ (b * len ≤ b * len + r ∧ b * len + r < b * len + h) by omega),
          if_pos (show b * len + h ≤ b * len + r ∧ b * len + r < b * len + h + h by omega)]
        have e1 := ih (by omega) b r hr hp
        rw [if_neg (show ¬ b < b by omega)] at e1
        have e2 := ih (by omega) b (r - h) (by omega) (by omega)
        rw [if_neg (show ¬ b < b by omega)] at e2
        have harr : b * len + r - h = b * len + (r - h) := by omega
        rw [harr, e1, e2, if_pos (show b < b + 1 by omega), if_neg hrh]
        have hsub : b * len + r - b * len - h = r - h := by omega
        rw [hsub, ← harr]
    · have hbl : B * len + len ≤ b * len := by
        calc B * len + len = (B + 1) * len := by ring
          _ ≤ b * len := Nat.mul_le_mul_right len (by omega)
      rw [if_neg (show ¬ (B * len ≤ b * len + r ∧ b * len + r < B * len + h) by omega),
        if_neg (show ¬ (B * len + h ≤ b * len + r ∧ b * len + r < B * len + h + h) by omega),
        ih (by omega) b r hr hp, if_neg (show ¬ b < B by omega),
        if_neg (show ¬ b < B + 1 by omega)]

/-- One `do_fft` pass over blocks of size `len = 2h`, fully characterized. -/
theorem fft_pass_getD (input : List Cplx) (n len h : ℕ) (inverse : Bool)
    (hn : input.length = n) (hdvd : len ∣ n) (hlen : len = h + h) (hh : 0 < h) :
    ∀ b r, r < len → b * len + r < n →
      (fft_pass input n len inverse).getD (b * len + r) 0 =
        if r < h then
          input.getD (b * len + r) 0 +
            input.getD (b * len + r + h) 0 * (wlenOf len inverse) ^ r
        else
          input.getD (b * len + r - h) 0 -
            input.getD (b * len + r) 0 * (wlenOf len inverse) ^ (r - h) := by
  intro b r hr hp
  have hlenpos : 0 < len := by omega
  have hblt : b < n / len := by
    by_contra hc
    push_neg at hc
    obtain ⟨q, hq⟩ := hdvd
    have hq' : n / len = q := by rw [hq]; exact Nat.mul_div_cancel_left q hlenpos
    rw [hq'] at hc
    have hble : n ≤ b * len := by rw [hq]; nlinarith
    omega
  have hhalf : len / 2 = h := by omega
  rw [fft_pass_eq, hhalf,
    fft_pass_partial input n len h (wlenOf len inverse) hn hdvd hlen hh
      (n / len) le_rfl b r hr hp, if_pos hblt]

theorem block_le_of_dvd {n len b r : ℕ} (hdvd : len ∣ n) (hpos : 0 < len)
    (hr : r < len) (hp : b * len + r < n) : b * len + len ≤ n := by
  obtain ⟨q, hq⟩ := hdvd
  have hq2 : n = q * len := by rw [hq, Nat.mul_comm]
  have hblt : b < q := by
    by_contra hc
    push_neg at hc
    have hle : q * len ≤ b * len := Nat.mul_le_mul_right len hc
    omega
  calc b * len + len = (b + 1) * len := by ring
    _ ≤ q * len := Nat.mul_le_mul_right len (by omega)
    _ = n := hq2.symm

theorem block_ge_of_dvd {n len b r : ℕ} (hdvd : len ∣ n) (hpos : 0 < len)
    (hr : r < len) (hp : n ≤ b * len + r) : n ≤ b * len := by
  obtain ⟨q, hq⟩ := hdvd
  have hq2 : n = q * len := by rw [hq, Nat.mul_comm]
  have hqb : q ≤ b := by
    by_contra hc
    push_neg at hc
    have hle : (b + 1) * len ≤ q * len := Nat.mul_le_mul_right len (by omega)
    have hexp : (b + 1) * len = b * len + len := by ring
    omega
  have hle : q * len ≤ b * len := Nat.mul_le_mul_right len hqb
  omega

/-- A butterfly pass on the concatenation of two half buffers whose length the
block size divides acts independently on the halves. -/
theorem fft_pass_append (A B : List Cplx) (n len h : ℕ) (inverse : Bool)
    (hA : A.length = n) (hB : B.length = n) (hdvd : len ∣ n) (hlen : len = h + h)
    (hh : 0 < h) :
    fft_pass (A ++ B) (n + n) len inverse =
      fft_pass A n len inverse ++ fft_pass B n len inverse := by
  have hpos : 0 < len := by omega
  have hAB : (A ++ B).length = n + n := by rw [List.length_append, hA, hB]
  have hdvd2 : len ∣ (n + n) := Nat.dvd_add hdvd hdvd
  apply List.ext_getElem
  · rw [fft_pass_length, hAB, List.length_append, fft_pass_length,
      fft_pass_length, hA, hB]
  intro p h1 h2
  rw [← getD_eq_getElem _ _ h1, ← getD_eq_getElem _ _ h2]
  have hp2n : p < n + n := by rw [fft_pass_length, hAB] at h1; exact h1
  have hdm := Nat.div_add_mod p len
  obtain ⟨b, r, hbr, hrlen⟩ : ∃ b r, p = b * len + r ∧ r < len :=
    ⟨p / len, p % len, by rw [Nat.mul_comm]; omega, Nat.mod_lt p hpos⟩
  subst hbr
  rw [fft_pass_getD (A ++ B) (n + n) len h inverse hAB hdvd2 hlen hh b r hrlen hp2n]
  by_cases hpn : b * len + r < n
  · have hfit : b * len + len ≤ n := block_le_of_dvd hdvd hpos hrlen hpn
    rw [getD_append_left _ _ (show b * len + r < (fft_pass A n len inverse).length by
      rw [fft_pass_length, hA]; exact hpn)]
    rw [fft_pass_getD A n len h inverse hA hdvd hlen hh b r hrlen hpn]
    by_cases hrh : r < h
    · rw [if_pos hrh, if_pos hrh,
        getD_append_left _ _ (show b * len + r < A.length by rw [hA]; omega),
        getD_append_left _ _ (show b * len + r + h < A.length by rw [hA]; omega)]
    · rw [if_neg hrh, if_neg hrh,
        getD_append_left _ _ (show b * len + r - h < A.length by rw [hA]; omega),
        getD_append_left _ _ (show b * len + r < A.length by rw [hA]; omega)]
  · push_neg at hpn
    have hge : n ≤ b * len := block_ge_of_dvd hdvd hpos hrlen hpn
    obtain ⟨q, hq⟩ := hdvd
    have hq2 : n = q * len := by rw [hq, Nat.mul_comm]
    have hqb : q ≤ b := by
      by_contra hc
      push_neg at hc
      have hle : (b + 1) * len ≤ q * len := Nat.mul_le_mul_right len (by omega)
      have hexp : (b + 1) * len = b * len + len := by ring
      omega
    have hb'len : (b - q) * len = b * len - n := by
      rw [Nat.sub_mul]
      omega
    have hp'n : (b - q) * len + r < n := by omega
    rw [getD_append_right _ _ (show (fft_pass A n len inverse).length ≤ b * len + r by
      rw [fft_pass_length, hA]; omega)]
    rw [show b * len + r - (fft_pass A n len inverse).length = (b - q) * len + r by
      rw [fft_pass_length, hA]; omega]
    rw [fft_pass_getD B n len h inverse hB ⟨q, hq⟩ hlen hh (b - q) r hrlen hp'n]
    by_cases hrh : r < h
    · rw [if_pos hrh, if_pos hrh,
        getD_append_right _ _ (show A.length ≤ b * len + r by rw [hA]; omega),
        getD_append_right _ _ (show A.length ≤ b * len + r + h by rw [hA]; omega)]
      rw [show b * len + r - A.length = (b - q) * len + r by rw [hA]; omega,
        show b * len + r + h - A.length = (b - q) * len + r + h by rw [hA]; omega]
    · rw [if_neg hrh, if_neg hrh,
        getD_append_right _ _ (show A.length ≤ b * len + r - h by rw [hA]; omega),
        getD_append_right _ _ (show A.length ≤ b * len + r by rw [hA]; omega)]
      rw [show b * len + r - h - A.length = (b - q) * len + r - h by rw [hA]; omega,
        show b * len + r - A.length = (b - q) * len + r by rw [hA]; omega]

theorem fft_loop_step (input : List Cplx) (max_len len : ℕ) (inverse : Bool)
    (h : 0 < len ∧ len ≤ max_len) :
    fft_loop input max_len len inverse =
      fft_loop (fft_pass input max_len len inverse) max_len (len * 2) inverse := by
  rw [fft_loop, if_pos h, Nat.shiftLeft_eq, pow_one]

theorem fft_loop_stop (input : List Cplx) (max_len len : ℕ) (inverse : Bool)
    (h : ¬ (0 < len ∧ len ≤ max_len)) :
    fft_loop input max_len len inverse = input := by
  rw [fft_loop, if_neg h]

/-- The while loop of `do_fft`, run on the concatenation of two power-of-two
halves from level `j+1` up: every pass up to the half size acts blockwise on
the halves, leaving exactly the final full-width pass to combine them. -/
theorem fft_loop_split (inverse : Bool) :
    ∀ d k j, j ≤ k → k - j = d → ∀ A B : List Cplx,
      A.length = 2 ^ k → B.length = 2 ^ k →
      fft_loop (A ++ B) (2 ^ (k + 1)) (2 ^ (j + 1)) inverse =
        fft_pass (fft_loop A (2 ^ k) (2 ^ (j + 1)) inverse ++
                  fft_loop B (2 ^ k) (2 ^ (j + 1)) inverse)
          (2 ^ (k + 1)) (2 ^ (k + 1)) inverse := by
  intro d
  induction d with
  | zero =>
    intro k j hj hd A B hA hB
    have hjk : j = k := by omega
    subst hjk
    have hp : 0 < (2:ℕ) ^ j := Nat.pos_pow_of_pos _ (by norm_num)
    have hs : (2:ℕ) ^ (j + 1) = 2 ^ j * 2 := pow_succ 2 j
    rw [fft_loop_step _ _ _ _ ⟨by omega, le_refl _⟩]
    rw [fft_loop_stop _ _ _ _ (by
      intro hc
      omega)]
    rw [fft_loop_stop A _ _ _ (by
      intro hc
      omega)]
    rw [fft_loop_stop B _ _ _ (by
      intro hc
      omega)]
  | succ d ihd =>
    intro k j hj hd A B hA hB
    have hjk : j < k := by omega
    have hp1 : 0 < (2:ℕ) ^ (j + 1) := Nat.pos_pow_of_pos _ (by norm_num)
    have hpj : 0 < (2:ℕ) ^ j := Nat.pos_pow_of_pos _ (by norm_num)
    have hle1 : (2:ℕ) ^ (j + 1) ≤ 2 ^ (k + 1) :=
      Nat.pow_le_pow_right (by norm_num) (by omega)
    have hle2 : (2:ℕ) ^ (j + 1) ≤ 2 ^ k :=
      Nat.pow_le_pow_right (by norm_num) (by omega)
    rw [fft_loop_step _ _ _ _ ⟨hp1, hle1⟩]
    have h2k : (2:ℕ) ^ (k + 1) = 2 ^ k + 2 ^ k := by rw [pow_succ]; omega
    have hlen2 : (2:ℕ) ^ (j + 1) = 2 ^ j + 2 ^ j := by rw [pow_succ]; omega
    have hdvdjk : (2:ℕ) ^ (j + 1) ∣ 2 ^ k := pow_dvd_pow 2 (by omega)
    have hpass : fft_pass (A ++ B) (2 ^ (k + 1)) (2 ^ (j + 1)) inverse =
        fft_pass A (2 ^ k) (2 ^ (j + 1)) inverse ++
          fft_pass B (2 ^ k) (2 ^ (j + 1)) inverse := by
      rw [h2k]
      exact fft_pass_append A B (2 ^ k) (2 ^ (j + 1)) (2 ^ j) inverse hA hB
        hdvdjk hlen2 hpj
    rw [hpass]
    have hstep : (2:ℕ) ^ (j + 1) * 2 = 2 ^ (j + 2) := (pow_succ 2 (j + 1)).symm
    rw [hstep]
    rw [ihd k (j + 1) (by omega) (by omega) _ _
      (by rw [fft_pass_length, hA]) (by rw [fft_pass_length, hB])]
    rw [fft_loop_step A _ _ _ ⟨hp1, hle2⟩, fft_loop_step B _ _ _ ⟨hp1, hle2⟩, hstep]

/-- Split a list into its even-indexed and odd-indexed entries (the
decimation step of the recursive Cooley–Tukey reading of the algorithm). -/
def deinterleave {α : Type} : List α → List α × List α
  | [] => ([], [])
  | [a] => ([a], [])
  | a :: b :: l => (a :: (deinterleave l).1, b :: (deinterleave l).2)

theorem deinterleave_length {α : Type} (l : List α) :
    (deinterleave l).1.length = (l.length + 1) / 2 ∧
      (deinterleave l).2.length = l.length / 2 := by
  induction l using deinterleave.induct with
  | case1 => exact ⟨by simp [deinterleave], by simp [deinterleave]⟩
  | case2 a => exact ⟨by simp [deinterleave], by simp [deinterleave]⟩
  | case3 a b l ih =>
    obtain ⟨ih1, ih2⟩ := ih
    constructor
    · simp only [deinterleave, List.length_cons, ih1]
      omega
    · simp only [deinterleave, List.length_cons, ih2]
      omega

theorem deinterleave_getD_fst (l : List Cplx) (j : ℕ) :
    (deinterleave l).1.getD j 0 = l.getD (2 * j) 0 := by
  induction l using deinterleave.induct generalizing j with
  | case1 => rfl
  | case2 a =>
    cases j with
    | zero => rfl
    | succ j =>
      show (0 : Cplx) = List.getD [a] (2 * (j + 1)) 0
      rw [getD_of_length_le _ (by simp only [List.length_singleton]; omega)]
  | case3 a b l ih =>
    cases j with
    | zero => rfl
    | succ j =>
      show (deinterleave l).1.getD j 0 = (a :: b :: l).getD (2 * (j + 1)) 0
      have harith : 2 * (j + 1) = (2 * j) + 1 + 1 := by omega
      rw [harith, List.getD_cons_succ, List.getD_cons_succ, ih j]

theorem deinterleave_getD_snd (l : List Cplx) (j : ℕ) :
    (deinterleave l).2.getD j 0 = l.getD (2 * j + 1) 0 := by
  induction l using deinterleave.induct generalizing j with
  | case1 => rfl
  | case2 a =>
    show (0 : Cplx) = List.getD [a] (2 * j + 1) 0
    rw [getD_of_length_le _ (by simp only [List.length_singleton]; omega)]
  | case3 a b l ih =>
    cases j with
    | zero => rfl
    | succ j =>
      show (deinterleave l).2.getD j 0 = (a :: b :: l).getD (2 * (j + 1) + 1) 0
      have harith : 2 * (j + 1) + 1 = (2 * j + 1) + 1 + 1 := by omega
      rw [harith, List.getD_cons_succ, List.getD_cons_succ, ih j]

theorem testBit_two_mul (m : ℕ) :
    ∀ t, (2 * m).testBit t = if t = 0 then false else m.testBit (t - 1) := by
  intro t
  cases t with
  | zero =>
    rw [if_pos rfl, Nat.testBit_zero]
    simp [Nat.mul_mod_right]
  | succ t =>
    rw [if_neg (by omega), Nat.testBit_succ]
    have hdiv : 2 * m / 2 = m := by omega
    rw [hdiv]
    rfl

theorem testBit_two_mul_add_one (m : ℕ) :
    ∀ t, (2 * m + 1).testBit t = if t = 0 then true else m.testBit (t - 1) := by
  intro t
  cases t with
  | zero =>
    rw [if_pos rfl, Nat.testBit_zero]
    simp [Nat.mul_add_mod]
  | succ t =>
    rw [if_neg (by omega), Nat.testBit_succ]
    have hdiv : (2 * m + 1) / 2 = m := by omega
    rw [hdiv]
    rfl

/-- Reversing `k+1` bits of an index below `2^k`: the result is even, with
the `k`-bit reversal in its upper bits. -/
theorem bitwise_reverse_succ_even (k j : ℕ) (hj : j < 2 ^ k) :
    bitwise_reverse j (k + 1) = 2 * bitwise_reverse j k := by
  apply Nat.eq_of_testBit_eq
  intro t
  rw [testBit_two_mul]
  cases t with
  | zero =>
    rw [if_pos rfl]
    rcases Bool.eq_false_or_eq_true ((bitwise_reverse j (k + 1)).testBit 0) with hb | hb
    · obtain ⟨-, h2⟩ := (bitwise_reverse_testBit j (k + 1) 0).mp hb
      rw [Nat.testBit_eq_false_of_lt (show j < 2 ^ (k + 1 - 1 - 0) by simpa using hj)] at h2
      exact absurd h2 (by simp)
    · exact hb
  | succ t =>
    rw [if_neg (by omega)]
    have hiff1 := bitwise_reverse_testBit j (k + 1) (t + 1)
    have hiff2 := bitwise_reverse_testBit j k t
    have hidx : k + 1 - 1 - (t + 1) = k - 1 - t := by omega
    rw [hidx] at hiff1
    rcases Bool.eq_false_or_eq_true ((bitwise_reverse j k).testBit t) with hb | hb
    · obtain ⟨hb1, hb2⟩ := hiff2.mp hb
      rw [Nat.succ_sub_one, hb]
      exact hiff1.mpr ⟨by omega, hb2⟩
    · rw [Nat.succ_sub_one, hb]
      rcases Bool.eq_false_or_eq_true ((bitwise_reverse j (k + 1)).testBit (t + 1)) with hb' | hb'
      · obtain ⟨hb1', hb2'⟩ := hiff1.mp hb'
        have : (bitwise_reverse j k).testBit t = true := hiff2.mpr ⟨by omega, hb2'⟩
        rw [this] at hb
        exact absurd hb (by simp)
      · exact hb'

/-- Reversing `k+1` bits of `2^k + j` for `j < 2^k`: the result is odd, with
the `k`-bit reversal in its upper bits. -/
theorem bitwise_reverse_succ_odd (k j : ℕ) (hj : j < 2 ^ k) :
    bitwise_reverse (2 ^ k + j) (k + 1) = 2 * bitwise_reverse j k + 1 := by
  apply Nat.eq_of_testBit_eq
  intro t
  rw [testBit_two_mul_add_one]
  cases t with
  | zero =>
    rw [if_pos rfl]
    apply (bitwise_reverse_testBit (2 ^ k + j) (k + 1) 0).mpr
    refine ⟨by omega, ?_⟩
    have hidx : k + 1 - 1 - 0 = k := by omega
    rw [hidx, Nat.testBit_two_pow_add_eq,
      Nat.testBit_eq_false_of_lt hj]
    rfl
  | succ t =>
    rw [if_neg (by omega), Nat.succ_sub_one]
    have hiff1 := bitwise_reverse_testBit (2 ^ k + j) (k + 1) (t + 1)
    have hiff2 := bitwise_reverse_testBit j k t
    have hidx : k + 1 - 1 - (t + 1) = k - 1 - t := by omega
    rw [hidx] at hiff1
    rcases Bool.eq_false_or_eq_true ((bitwise_reverse j k).testBit t) with hb | hb
    · obtain ⟨hb1, hb2⟩ := hiff2.mp hb
      have hlow : (2 ^ k + j).testBit (k - 1 - t) = true := by
        rw [Nat.testBit_two_pow_add_gt (by omega)]
        exact hb2
      rw [hb, hiff1.mpr ⟨by omega, hlow⟩]
    · rw [hb]
      rcases Bool.eq_false_or_eq_true ((bitwise_reverse (2 ^ k + j) (k + 1)).testBit (t + 1)) with hb' | hb'
      · obtain ⟨hb1', hb2'⟩ := hiff1.mp hb'
        have htk : t < k := by omega
        rw [Nat.testBit_two_pow_add_gt (by omega)] at hb2'
        have : (bitwise_reverse j k).testBit t = true := hiff2.mpr ⟨htk, hb2'⟩
        rw [this] at hb
        exact absurd hb (by simp)
      · exact hb'

/-- The bit-reversal permutation of a `2^(k+1)` buffer splits into the
permutations of its even- and odd-indexed halves. -/
theorem permute_split (k : ℕ) (x : List Cplx) (hx : x.length = 2 ^ (k + 1)) :
    bitwise_reverse_permute x (2 ^ (k + 1)) =
      bitwise_reverse_permute (deinterleave x).1 (2 ^ k) ++
        bitwise_reverse_permute (deinterleave x).2 (2 ^ k) := by
  have hpow : (2:ℕ) ^ (k + 1) = 2 ^ k * 2 := pow_succ 2 k
  have hlen1 : (deinterleave x).1.length = 2 ^ k := by
    rw [(deinterleave_length x).1, hx]
    omega
  have hlen2 : (deinterleave x).2.length = 2 ^ k := by
    rw [(deinterleave_length x).2, hx]
    omega
  obtain ⟨hPlen, hPget⟩ := bitwise_reverse_permute_spec (k + 1) x hx
  obtain ⟨hElen, hEget⟩ := bitwise_reverse_permute_spec k _ hlen1
  obtain ⟨hOlen, hOget⟩ := bitwise_reverse_permute_spec k _ hlen2
  apply List.ext_getElem
  · rw [hPlen, List.length_append, hElen, hOlen]
    omega
  intro p h1 h2
  have hp : p < 2 ^ (k + 1) := by rw [hPlen] at h1; exact h1
  rw [← getD_eq_getElem _ _ h1, ← getD_eq_getElem _ _ h2]
  rw [hPget p hp]
  by_cases hpk : p < 2 ^ k
  · rw [getD_append_left _ _ (by rw [hElen]; exact hpk), hEget p hpk,
      deinterleave_getD_fst, bitwise_reverse_succ_even k p hpk]
  · push_neg at hpk
    have hp' : p - 2 ^ k < 2 ^ k := by omega
    rw [getD_append_right _ _ (by rw [hElen]; exact hpk)]
    rw [hElen, hOget (p - 2 ^ k) hp', deinterleave_getD_snd]
    have hdecomp : p = 2 ^ k + (p - 2 ^ k) := by omega
    have hrev : bitwise_reverse p (k + 1) = 2 * bitwise_reverse (p - 2 ^ k) k + 1 := by
      have hodd := bitwise_reverse_succ_odd k (p - 2 ^ k) hp'
      rw [← hdecomp] at hodd
      exact hodd
    rw [hrev]

/-- The sign factor of a transform direction. -/
noncomputable def csign (inverse : Bool) : ℂ :=
  match inverse with
  | true => -1
  | false => 1

theorem csign_false : csign false = 1 := rfl

theorem csign_true : csign true = -1 := rfl

/-- The complex value of the per-level twiddle: `e^(±2πi/len)`. -/
noncomputable def cexpn (len : ℕ) (inverse : Bool) : ℂ :=
  Complex.exp (csign inverse * (2 * (Real.pi : ℂ) / len) * Complex.I)

theorem toC_wlenOf (len : ℕ) (inverse : Bool) :
    Cplx.toC (wlenOf len inverse) = cexpn len inverse := by
  have harg : csign inverse * (2 * (Real.pi : ℂ) / len) * Complex.I =
      ((2 * (Real.pi / len) * (if inverse then -1 else 1) : ℝ) : ℂ) * Complex.I := by
    cases inverse
    · rw [csign_false, if_neg (by simp)]
      push_cast
      ring
    · rw [csign_true, if_pos rfl]
      push_cast
      ring
  rw [cexpn, harg, Complex.exp_mul_I]
  apply Complex.ext
  · simp [wlenOf, Cplx.toC, Complex.cos_ofReal_re, Complex.sin_ofReal_im]
  · simp [wlenOf, Cplx.toC, Complex.cos_ofReal_im, Complex.sin_ofReal_re]

theorem cexpn_pow_self (n : ℕ) (hn : 0 < n) (inverse : Bool) :
    cexpn n inverse ^ n = 1 := by
  have hne : (n : ℂ) ≠ 0 := Nat.cast_ne_zero.mpr hn.ne'
  rw [cexpn, ← Complex.exp_nat_mul]
  cases inverse
  · rw [csign_false,
      show (n : ℂ) * ((1 : ℂ) * (2 * (Real.pi : ℂ) / n) * Complex.I) =
        ((1 : ℤ) : ℂ) * (2 * (Real.pi : ℂ) * Complex.I) by push_cast; field_simp]
    exact Complex.exp_int_mul_two_pi_mul_I 1
  · rw [csign_true,
      show (n : ℂ) * ((-1 : ℂ) * (2 * (Real.pi : ℂ) / n) * Complex.I) =
        ((-1 : ℤ) : ℂ) * (2 * (Real.pi : ℂ) * Complex.I) by push_cast; field_simp; ring]
    exact Complex.exp_int_mul_two_pi_mul_I (-1)

theorem cexpn_sq (n : ℕ) (hn : 0 < n) (inverse : Bool) :
    cexpn (2 * n) inverse ^ 2 = cexpn n inverse := by
  have hne : (n : ℂ) ≠ 0 := Nat.cast_ne_zero.mpr hn.ne'
  rw [cexpn, cexpn, ← Complex.exp_nat_mul]
  congr 1
  cases inverse <;> rw [csign] <;> push_cast <;> field_simp <;> ring

theorem cexpn_pow_half (n : ℕ) (hn : 0 < n) (inverse : Bool) :
    cexpn (2 * n) inverse ^ n = -1 := by
  have hne : (n : ℂ) ≠ 0 := Nat.cast_ne_zero.mpr hn.ne'
  rw [cexpn, ← Complex.exp_nat_mul]
  cases inverse
  · rw [csign_false,
      show (n : ℂ) * ((1 : ℂ) * (2 * (Real.pi : ℂ) / ((2 * n : ℕ) : ℂ)) * Complex.I) =
        (Real.pi : ℂ) * Complex.I by push_cast; field_simp; ring]
    exact Complex.exp_pi_mul_I
  · rw [csign_true,
      show (n : ℂ) * ((-1 : ℂ) * (2 * (Real.pi : ℂ) / ((2 * n : ℕ) : ℂ)) * Complex.I) =
        -((Real.pi : ℂ) * Complex.I) by push_cast; field_simp; ring]
    rw [Complex.exp_neg, Complex.exp_pi_mul_I]
    norm_num

theorem cexpn_true_eq_inv (n : ℕ) : cexpn n true = (cexpn n false)⁻¹ := by
  rw [cexpn, cexpn, csign_true, csign_false, ← Complex.exp_neg]
  congr 1
  ring

theorem cexpn_ne_zero (n : ℕ) (inverse : Bool) : cexpn n inverse ≠ 0 :=
  Complex.exp_ne_zero _

/-- Distinct exponents below `n` give distinct powers of the primitive
twiddle. -/
theorem cexpn_pow_inj (n : ℕ) (hn : 0 < n) {u j : ℕ} (hu : u < n) (hj : j < n)
    (h : cexpn n false ^ u = cexpn n false ^ j) : u = j := by
  have hne : (n : ℂ) ≠ 0 := Nat.cast_ne_zero.mpr hn.ne'
  rw [cexpn, csign_false, ← Complex.exp_nat_mul, ← Complex.exp_nat_mul] at h
  have hdiff : Complex.exp (((u : ℂ) - j) *
      ((1 : ℂ) * (2 * (Real.pi : ℂ) / n) * Complex.I)) = 1 := by
    rw [sub_mul, Complex.exp_sub, h, div_self (Complex.exp_ne_zero _)]
  obtain ⟨c, hc⟩ := Complex.exp_eq_one_iff.mp hdiff
  have hpine : (Real.pi : ℂ) ≠ 0 := Complex.ofReal_ne_zero.mpr Real.pi_ne_zero
  have ha_ne : ((1 : ℂ) * (2 * (Real.pi : ℂ) / n) * Complex.I) ≠ 0 := by
    apply mul_ne_zero
    apply mul_ne_zero
    · norm_num
    · exact div_ne_zero (mul_ne_zero two_ne_zero hpine) hne
    · exact Complex.I_ne_zero
  have hna : ((n : ℂ)) * ((1 : ℂ) * (2 * (Real.pi : ℂ) / n) * Complex.I) =
      2 * (Real.pi : ℂ) * Complex.I := by field_simp
  rw [← hna] at hc
  have hcast : ((u : ℂ) - j) = (c : ℂ) * n := by
    have hc' : ((u : ℂ) - j) * ((1 : ℂ) * (2 * (Real.pi : ℂ) / n) * Complex.I) =
        ((c : ℂ) * n) * ((1 : ℂ) * (2 * (Real.pi : ℂ) / n) * Complex.I) := by
      rw [hc]
      ring
    exact mul_right_cancel₀ ha_ne hc'
  have hint : (u : ℤ) - j = c * n := by exact_mod_cast hcast
  have hun : (u : ℤ) < n := by exact_mod_cast hu
  have hjn : (j : ℤ) < n := by exact_mod_cast hj
  have hnz : (0 : ℤ) < n := by exact_mod_cast hn
  rcases lt_trichotomy c 0 with hc0 | hc0 | hc0
  · have hcle : c ≤ -1 := by omega
    have hmul : c * (n : ℤ) ≤ -(n : ℤ) := by nlinarith
    omega
  · rw [hc0, zero_mul] at hint
    omega
  · have hcge : 1 ≤ c := by omega
    have hmul : (n : ℤ) ≤ c * n := by nlinarith
    omega

/-- Orthogonality of the twiddle characters: summing
`ζ^(t·u) · ζ̄^(j·t)` over a period picks out `u = j`. -/
theorem dft_orthogonality (n : ℕ) (hn : 0 < n) (u j : ℕ) (hu : u < n) (hj : j < n) :
    ∑ t in Finset.range n, cexpn n false ^ (t * u) * cexpn n true ^ (j * t) =
      if u = j then (n : ℂ) else 0 := by
  have hz : cexpn n false ≠ 0 := cexpn_ne_zero n false
  have hzj : cexpn n false ^ j ≠ 0 := pow_ne_zero _ hz
  have hterm : ∀ t, cexpn n false ^ (t * u) * cexpn n true ^ (j * t)
      = (cexpn n false ^ u * (cexpn n false ^ j)⁻¹) ^ t := by
    intro t
    rw [cexpn_true_eq_inv, inv_pow, show t * u = u * t by ring, pow_mul, pow_mul,
      ← inv_pow, ← mul_pow]
  rw [Finset.sum_congr rfl (fun t _ => hterm t)]
  by_cases huj : u = j
  · subst huj
    rw [mul_inv_cancel₀ (pow_ne_zero _ hz)]
    simp
  · rw [if_neg huj]
    have hq1 : cexpn n false ^ u * (cexpn n false ^ j)⁻¹ ≠ 1 := by
      intro hq
      apply huj
      apply cexpn_pow_inj n hn hu hj
      rw [mul_inv_eq_one₀ hzj] at hq
      exact hq
    rw [geom_sum_eq hq1]
    have hqn : (cexpn n false ^ u * (cexpn n false ^ j)⁻¹) ^ n = 1 := by
      rw [mul_pow, ← pow_mul, show u * n = n * u by ring, pow_mul,
        cexpn_pow_self n hn, one_pow, inv_pow, ← pow_mul,
        show j * n = n * j by ring, pow_mul, cexpn_pow_self n hn, one_pow,
        inv_one, mul_one]
    rw [hqn, sub_self, zero_div]

/-- Splitting a sum over `range (2n)` into even- and odd-indexed parts. -/
theorem sum_range_even_odd (f : ℕ → ℂ) (n : ℕ) :
    ∑ t in Finset.range (2 * n), f t =
      ∑ t in Finset.range n, f (2 * t) + ∑ t in Finset.range n, f (2 * t + 1) := by
  induction n with
  | zero => simp
  | succ n ih =>
    rw [show 2 * (n + 1) = (2 * n) + 1 + 1 by omega, Finset.sum_range_succ,
      Finset.sum_range_succ, ih, Finset.sum_range_succ, Finset.sum_range_succ]
    ring

theorem foldl_swap_length (k : ℕ) (il : List ℕ) (l : List Cplx) :
    ((il.foldl (fun input i =>
        let ri := bitwise_reverse i k
        if i < ri then listSwap input i ri else input) l)).length = l.length := by
  induction il generalizing l with
  | nil => rfl
  | cons a il ih =>
    rw [List.foldl_cons, ih]
    dsimp only
    split
    · rw [length_listSwap]
    · rfl

theorem bitwise_reverse_permute_length (l : List Cplx) (s : ℕ) :
    (bitwise_reverse_permute l s).length = l.length := by
  rw [bitwise_reverse_permute]
  exact foldl_swap_length _ _ _

/-- The data path of `do_fft` after the size guard: the bit-reversal
permutation followed by the butterfly while loop. -/
noncomputable def fft_core (x : List Cplx) (inverse : Bool) : List Cplx :=
  fft_loop (bitwise_reverse_permute x x.length) x.length 2 inverse

theorem fft_core_length (x : List Cplx) (inverse : Bool) :
    (fft_core x inverse).length = x.length := by
  rw [fft_core, fft_loop_length, bitwise_reverse_permute_length]

theorem fft_loop_split2 (inverse : Bool) (k : ℕ) (A B : List Cplx)
    (hA : A.length = 2 ^ k) (hB : B.length = 2 ^ k) :
    fft_loop (A ++ B) (2 ^ (k + 1)) 2 inverse =
      fft_pass (fft_loop A (2 ^ k) 2 inverse ++ fft_loop B (2 ^ k) 2 inverse)
        (2 ^ (k + 1)) (2 ^ (k + 1)) inverse := by
  have h := fft_loop_split inverse k k 0 (by omega) (by omega) A B hA hB
  norm_num at h
  exact h

theorem inverse_scale_partial (c : Cplx) (input : List Cplx) (m : ℕ)
    (hm : m ≤ input.length) :
    ∀ p, ((List.range m).foldl
        (fun input i => input.set i (input.getD i 0 / c)) input).getD p 0
      = if p < m then input.getD p 0 / c else input.getD p 0 := by
  induction m with
  | zero =>
    intro p
    rw [if_neg (by omega)]
    rfl
  | succ m ih =>
    intro p
    rw [List.range_succ, List.foldl_append, List.foldl_cons, List.foldl_nil]
    have ihm := ih (by omega)
    rcases eq_or_ne p m with rfl | hpm
    · have hFm := ihm p
      rw [if_neg (by omega)] at hFm
      rw [getD_set_self _ _ (by rw [set_div_fold_length]; omega), hFm, if_pos (by omega)]
    · rw [getD_set_ne _ (Ne.symm hpm), ihm p]
      by_cases hc : p < m
      · rw [if_pos hc, if_pos (by omega)]
      · rw [if_neg hc, if_neg (by omega)]

theorem inverse_scale_getD (input : List Cplx) (n : ℕ) (hlen : input.length = n) :
    ∀ p, p < n →
      (inverse_scale input n).getD p 0 = input.getD p 0 / Cplx.mkReal n := by
  intro p hp
  rw [inverse_scale, inverse_scale_partial _ _ _ (by omega) p, if_pos hp]

/-- Running `do_fft` on an accepted buffer: the flag is ok and the final buffer is the
core pipeline, normalized by the length on the inverse direction. -/
theorem do_fft_ok (x : List Cplx) (inverse : Bool)
    (h : is_power_of_two x.length = true) :
    do_fft x inverse =
      (Except.ok (), if inverse then inverse_scale (fft_core x inverse) x.length
                     else fft_core x inverse) := by
  rw [do_fft, if_neg (by simp [h])]
  rfl

/-- The butterfly pipeline of `do_fft` computes the discrete Fourier
transform with twiddle `e^(±2πi/2^k)` (sign per direction, no scaling). -/
theorem fft_core_dft (inverse : Bool) :
    ∀ k (x : List Cplx), x.length = 2 ^ k →
      ∀ j, j < 2 ^ k →
        Cplx.toC ((fft_core x inverse).getD j 0) =
          ∑ t in Finset.range (2 ^ k),
            Cplx.toC (x.getD t 0) * cexpn (2 ^ k) inverse ^ (j * t) := by
  intro k
  induction k with
  | zero =>
    intro x hx j hj
    have hj0 : j = 0 := by omega
    subst hj0
    rw [fft_core, hx]
    rw [fft_loop_stop _ _ _ _ (by norm_num)]
    obtain ⟨hPlen, hPget⟩ := bitwise_reverse_permute_spec 0 x hx
    rw [hPget 0 (by norm_num)]
    rw [show bitwise_reverse 0 0 = 0 from rfl]
    norm_num [Finset.sum_range_one]
  | succ k ih =>
    intro x hx j hj
    have hn : (0:ℕ) < 2 ^ k := Nat.pos_pow_of_pos _ (by norm_num)
    have hN : (2:ℕ) ^ (k + 1) = 2 ^ k + 2 ^ k := by rw [pow_succ]; omega
    have hN2 : (2:ℕ) ^ (k + 1) = 2 * 2 ^ k := by rw [pow_succ]; omega
    have hE : (deinterleave x).1.length = 2 ^ k := by
      rw [(deinterleave_length x).1, hx, hN2]
      omega
    have hO : (deinterleave x).2.length = 2 ^ k := by
      rw [(deinterleave_length x).2, hx, hN2]
      omega
    have hPE := bitwise_reverse_permute_spec k _ hE
    have hPO := bitwise_reverse_permute_spec k _ hO
    have hcore : fft_core x inverse =
        fft_pass (fft_core (deinterleave x).1 inverse ++
            fft_core (deinterleave x).2 inverse)
          (2 ^ (k + 1)) (2 ^ (k + 1)) inverse := by
      simp only [fft_core]
      rw [hx, hE, hO, permute_split k x hx,
        fft_loop_split2 inverse k _ _ hPE.1 hPO.1]
    rw [hcore]
    have hlenEO : (fft_core (deinterleave x).1 inverse ++
        fft_core (deinterleave x).2 inverse).length = 2 ^ (k + 1) := by
      rw [List.length_append, fft_core_length, fft_core_length, hE, hO, hN]
    have hpass := fft_pass_getD _ (2 ^ (k + 1)) (2 ^ (k + 1)) (2 ^ k) inverse hlenEO
      dvd_rfl hN hn 0 j hj (by simpa using hj)
    simp only [zero_mul, zero_add] at hpass
    rw [hpass]
    by_cases hjk : j < 2 ^ k
    · rw [if_pos hjk,
        getD_append_left _ _ (by rw [fft_core_length, hE]; exact hjk),
        getD_append_right _ _ (by rw [fft_core_length, hE]; omega),
        show j + 2 ^ k - (fft_core (deinterleave x).1 inverse).length = j by
          rw [fft_core_length, hE]; omega]
      rw [Cplx.toC_add, Cplx.toC_mul, Cplx.toC_pow, toC_wlenOf]
      rw [ih _ hE j hjk, ih _ hO j hjk]
      rw [hN2, sum_range_even_odd]
      have heven : ∀ t ∈ Finset.range (2 ^ k),
          Cplx.toC (x.getD (2 * t) 0) * cexpn (2 * 2 ^ k) inverse ^ (j * (2 * t)) =
            Cplx.toC ((deinterleave x).1.getD t 0) * cexpn (2 ^ k) inverse ^ (j * t) := by
        intro t _
        rw [deinterleave_getD_fst]
        congr 1
        rw [show j * (2 * t) = 2 * (j * t) by ring, pow_mul, cexpn_sq (2 ^ k) hn]
      have hodd : ∀ t ∈ Finset.range (2 ^ k),
          Cplx.toC (x.getD (2 * t + 1) 0) * cexpn (2 * 2 ^ k) inverse ^ (j * (2 * t + 1)) =
            cexpn (2 * 2 ^ k) inverse ^ j *
              (Cplx.toC ((deinterleave x).2.getD t 0) * cexpn (2 ^ k) inverse ^ (j * t)) := by
        intro t _
        rw [deinterleave_getD_snd]
        rw [show j * (2 * t + 1) = 2 * (j * t) + j by ring, pow_add, pow_mul,
          cexpn_sq (2 ^ k) hn]
        ring
      rw [Finset.sum_congr rfl heven, Finset.sum_congr rfl hodd, ← Finset.mul_sum]
      ring
    · push_neg at hjk
      obtain ⟨j', rfl⟩ : ∃ j', j = 2 ^ k + j' := ⟨j - 2 ^ k, by omega⟩
      have hj' : j' < 2 ^ k := by omega
      have hsub : 2 ^ k + j' - 2 ^ k = j' := by omega
      rw [if_neg (by omega), hsub,
        getD_append_left _ _ (by rw [fft_core_length, hE]; omega),
        getD_append_right _ _ (by rw [fft_core_length, hE]; omega),
        show 2 ^ k + j' - (fft_core (deinterleave x).1 inverse).length = j' by
          rw [fft_core_length, hE]; omega]
      rw [Cplx.toC_sub, Cplx.toC_mul, Cplx.toC_pow, toC_wlenOf]
      rw [ih _ hE j' hj', ih _ hO j' hj']
      rw [hN2, sum_range_even_odd]
      have heven : ∀ t ∈ Finset.range (2 ^ k),
          Cplx.toC (x.getD (2 * t) 0) *
              cexpn (2 * 2 ^ k) inverse ^ ((2 ^ k + j') * (2 * t)) =
            Cplx.toC ((deinterleave x).1.getD t 0) * cexpn (2 ^ k) inverse ^ (j' * t) := by
        intro t _
        rw [deinterleave_getD_fst]
        congr 1
        rw [show (2 ^ k + j') * (2 * t) = (2 * 2 ^ k) * t + 2 * (j' * t) by ring,
          pow_add, pow_mul, cexpn_pow_self (2 * 2 ^ k) (by omega) inverse,
          one_pow, pow_mul, cexpn_sq (2 ^ k) hn, one_mul]
      have hodd : ∀ t ∈ Finset.range (2 ^ k),
          Cplx.toC (x.getD (2 * t + 1) 0) *
              cexpn (2 * 2 ^ k) inverse ^ ((2 ^ k + j') * (2 * t + 1)) =
            -(cexpn (2 * 2 ^ k) inverse ^ j' *
              (Cplx.toC ((deinterleave x).2.getD t 0) *
                cexpn (2 ^ k) inverse ^ (j' * t))) := by
        intro t _
        rw [deinterleave_getD_snd]
        rw [show (2 ^ k + j') * (2 * t + 1) =
            (2 * 2 ^ k) * t + 2 * (j' * t) + 2 ^ k + j' by ring,
          pow_add, pow_add, pow_add, pow_mul,
          cexpn_pow_self (2 * 2 ^ k) (by omega) inverse, one_pow, pow_mul,
          cexpn_sq (2 ^ k) hn, cexpn_pow_half (2 ^ k) hn inverse]
        ring
      rw [Finset.sum_congr rfl heven, Finset.sum_congr rfl hodd,
        Finset.sum_neg_distrib, ← Finset.mul_sum]
      ring

/-- C4: on every power-of-two-length complex buffer, the forward transform
followed by the inverse transform returns the original buffer exactly — in
particular within ε = 2e-5 per component. -/
theorem C4_round_trip (x : List Cplx) (k : ℕ) (hx : x.length = 2 ^ k) :
    ∃ X Y, do_fft x false = (Except.ok (), X) ∧
      do_fft X true = (Except.ok (), Y) ∧
      Y = x ∧
      ∀ j, j < x.length →
        |((Y.getD j 0).real - (x.getD j 0).real)| ≤ 2e-5 ∧
        |((Y.getD j 0).imaginary - (x.getD j 0).imaginary)| ≤ 2e-5 := by
  have hn : (0:ℕ) < 2 ^ k := Nat.pos_pow_of_pos _ (by norm_num)
  have hpow : is_power_of_two x.length = true := (is_power_of_two_iff _).mpr ⟨k, hx⟩
  have hd1 : do_fft x false = (Except.ok (), fft_core x false) := by
    rw [do_fft_ok x false hpow]
    norm_num
  have hFlen : (fft_core x false).length = 2 ^ k := by rw [fft_core_length, hx]
  have hpowF : is_power_of_two (fft_core x false).length = true := by
    rw [hFlen]
    exact (is_power_of_two_iff _).mpr ⟨k, rfl⟩
  have hd2 : do_fft (fft_core x false) true =
      (Except.ok (), inverse_scale (fft_core (fft_core x false) true) (2 ^ k)) := by
    rw [do_fft_ok _ true hpowF, hFlen]
    norm_num
  have hYlen : (inverse_scale (fft_core (fft_core x false) true) (2 ^ k)).length
      = 2 ^ k := by
    rw [inverse_scale_length, fft_core_length, hFlen]
  have hYx : inverse_scale (fft_core (fft_core x false) true) (2 ^ k) = x := by
    apply List.ext_getElem (by rw [hYlen, hx])
    intro j h1 h2
    have hj : j < 2 ^ k := by rw [hYlen] at h1; exact h1
    rw [← getD_eq_getElem _ _ h1, ← getD_eq_getElem _ _ h2]
    apply Cplx.toC_injective
    rw [inverse_scale_getD _ _ (by rw [fft_core_length, hFlen]) j hj,
      Cplx.toC_div, Cplx.toC_mkReal,
      fft_core_dft true k (fft_core x false) hFlen j hj]
    have hFt : ∀ t ∈ Finset.range (2 ^ k),
        Cplx.toC ((fft_core x false).getD t 0) * cexpn (2 ^ k) true ^ (j * t) =
          (∑ u in Finset.range (2 ^ k),
            Cplx.toC (x.getD u 0) * cexpn (2 ^ k) false ^ (t * u)) *
            cexpn (2 ^ k) true ^ (j * t) := by
      intro t ht
      rw [fft_core_dft false k x hx t (Finset.mem_range.mp ht)]
    rw [Finset.sum_congr rfl hFt]
    have hstep1 : ∀ t ∈ Finset.range (2 ^ k),
        (∑ u in Finset.range (2 ^ k),
          Cplx.toC (x.getD u 0) * cexpn (2 ^ k) false ^ (t * u)) *
            cexpn (2 ^ k) true ^ (j * t) =
          ∑ u in Finset.range (2 ^ k),
            Cplx.toC (x.getD u 0) *
              (cexpn (2 ^ k) false ^ (t * u) * cexpn (2 ^ k) true ^ (j * t)) := by
      intro t _
      rw [Finset.sum_mul]
      exact Finset.sum_congr rfl (fun u _ => by ring)
    rw [Finset.sum_congr rfl hstep1, Finset.sum_comm]
    have hstep2 : ∀ u ∈ Finset.range (2 ^ k),
        ∑ t in Finset.range (2 ^ k),
          Cplx.toC (x.getD u 0) *
            (cexpn (2 ^ k) false ^ (t * u) * cexpn (2 ^ k) true ^ (j * t)) =
          Cplx.toC (x.getD u 0) *
            (if u = j then ((2 ^ k : ℕ) : ℂ) else 0) := by
      intro u hu
      rw [← Finset.mul_sum,
        dft_orthogonality (2 ^ k) hn u j (Finset.mem_range.mp hu) hj]
    rw [Finset.sum_congr rfl hstep2]
    have hstep3 : ∀ u ∈ Finset.range (2 ^ k),
        Cplx.toC (x.getD u 0) * (if u = j then ((2 ^ k : ℕ) : ℂ) else 0) =
          if u = j then Cplx.toC (x.getD u 0) * ((2 ^ k : ℕ) : ℂ) else 0 := by
      intro u _
      split
      · rfl
      · rw [mul_zero]
    rw [Finset.sum_congr rfl hstep3, Finset.sum_ite_eq' (Finset.range (2 ^ k)) j,
      if_pos (Finset.mem_range.mpr hj)]
    have hcne : (((2 ^ k : ℕ) : ℝ) : ℂ) ≠ 0 := by
      push_cast
      exact_mod_cast hn.ne'
    push_cast
    field_simp
  refine ⟨fft_core x false, inverse_scale (fft_core (fft_core x false) true) (2 ^ k),
    hd1, hd2, hYx, fun j hj => ?_⟩
  rw [hYx]
  constructor <;> (rw [sub_self, abs_zero]; norm_num)

/-- C4 witness: the length-1 buffer `[5]` (2^0 points). -/
theorem C4_witness :
    ∃ X Y, do_fft [Cplx.mkReal 5] false = (Except.ok (), X) ∧
      do_fft X true = (Except.ok (), Y) ∧
      Y = [Cplx.mkReal 5] ∧
      ∀ j, j < [Cplx.mkReal 5].length →
        |((Y.getD j 0).real - ([Cplx.mkReal 5].getD j 0).real)| ≤ 2e-5 ∧
        |((Y.getD j 0).imaginary - ([Cplx.mkReal 5].getD j 0).imaginary)| ≤ 2e-5 :=
  C4_round_trip [Cplx.mkReal 5] 0 rfl

/-- C1: the code transitions and returns sample × end scalar, but does NOT
reset time-in-stage to 0.  At sample rate 1 with attack 1/2, the first
`next` call moves Attack→Decay yet leaves `time_in_state` at 1 (the spec and
the field's own documentation require 0). -/
theorem C1_transition_keeps_time :
    ((Adsr.new (Sample.Square (1/2) 1 1) 1 (1/2) 1 1 1 1 1).next 0).2.current_state
        = AdsrState.Decay ∧
    ((Adsr.new (Sample.Square (1/2) 1 1) 1 (1/2) 1 1 1 1 1).next 0).2.time_in_state = 1 ∧
    ((Adsr.new (Sample.Square (1/2) 1 1) 1 (1/2) 1 1 1 1 1).next 0).1
        = (Sample.Square (1/2) 1 1).next 0 * 1 := by
  simp [Adsr.new, Adsr.next, Adsr.step_state]
  norm_num

end Fisual
